import Mathlib

/-!
# Verification of the wall-clock resolver of the clock-app repository

This file embeds the algorithmic core of `src/scripts/clock.ts` (and its
refactored copies `converter-logic.ts` / `clock-time.ts`): the wall-time value
type, the minute-epoch helper `wallToMinuteEpoch` (JavaScript `Date.UTC`), the
parser `parseWallTime`, the formatting helpers, and the brute-force resolver
`resolveSourceInstant`, together with proofs of the specified properties.

The platform primitive `getZonedDateTimeParts` (an `Intl.DateTimeFormat`
projection of an absolute instant into a zone's civil fields) is external to
the repository; following §4.1 of the specification it is treated as an
abstract function `proj : Int → ZonedDateTimeParts` from instants (epoch
milliseconds, modelling the JavaScript `Date` wrapped around them) to civil
fields.  Theorems about specific classes of zones (fixed offset, single DST
transition) state their assumptions on `proj` explicitly.
-/

/-- `WallTime` of clock.ts: `{ year, month, day, hour, minute }`.
Fields are JavaScript numbers holding integers; embedded as `Int`. -/
structure WallTime where
  year : Int
  month : Int
  day : Int
  hour : Int
  minute : Int
deriving DecidableEq, Repr

/-- `ZonedDateTimeParts` of clock.ts: a `WallTime` plus a `second` field. -/
structure ZonedDateTimeParts where
  year : Int
  month : Int
  day : Int
  hour : Int
  minute : Int
  second : Int
deriving DecidableEq, Repr

/-- `DstStatus` of clock.ts: `'normal' | 'ambiguous' | 'invalid-adjusted'`. -/
inductive DstStatus where
  | normal
  | ambiguous
  | invalidAdjusted
deriving DecidableEq, Repr

/-- `ConversionResult` of clock.ts.  The `instant: Date` field is embedded by
its epoch-millisecond value `instantMs` (a JavaScript `Date` is a wrapper
around exactly that number, and `resolveSourceInstant` builds it with
`new Date(ms)`). -/
structure ConversionResult where
  instantMs : Int
  status : DstStatus
  adjustedWall : Option WallTime
deriving DecidableEq, Repr

/-- Gregorian leap-year rule, as used by the ECMAScript proleptic calendar
underlying `Date.UTC`. -/
def isLeapYear (y : Int) : Prop := (y % 4 = 0 ∧ y % 100 ≠ 0) ∨ y % 400 = 0

instance (y : Int) : Decidable (isLeapYear y) := by unfold isLeapYear; infer_instance

/-- `1` in a leap year, else `0`. -/
def leapDay (y : Int) : Int := if isLeapYear y then 1 else 0

/-- Number of days of month `m` (1..12) of year `y` in the proleptic Gregorian
calendar of ECMAScript. -/
def daysInMonth (y m : Int) : Int :=
  if m = 2 then 28 + leapDay y
  else if m = 4 ∨ m = 6 ∨ m = 9 ∨ m = 11 then 30
  else 31

/-- Calendar validity of a year/month/day triple (the condition equivalent to
the `Date.UTC` probe round-trip used by `parseWallTime`). -/
def isValidDate (y m d : Int) : Prop :=
  1 ≤ m ∧ m ≤ 12 ∧ 1 ≤ d ∧ d ≤ daysInMonth y m

instance (y m d : Int) : Decidable (isValidDate y m d) := by
  unfold isValidDate; infer_instance

/-- Days since 1970-01-01 of the proleptic Gregorian date `y-m-d`; the
day-count normalisation performed by `Date.UTC` (Howard Hinnant's
`days_from_civil`, written with floor division, which is what Lean's `/` on
`Int` computes).  For calendar-valid dates it agrees with ECMAScript's
`MakeDay`. -/
def daysFromCivil (y m d : Int) : Int :=
  let y2 : Int := if m ≤ 2 then y - 1 else y
  let era : Int := y2 / 400
  let yoe : Int := y2 - era * 400
  let doy : Int := (153 * (m + (if 2 < m then -3 else 9)) + 2) / 5 + d - 1
  let doe : Int := yoe * 365 + yoe / 4 - yoe / 100 + doy
  era * 146097 + doe - 719468

/-- The year-argument normalisation of `Date.UTC`: integer years `0..99` are
interpreted as `1900..1999`. -/
def utcYear (y : Int) : Int := if 0 ≤ y ∧ y ≤ 99 then y + 1900 else y

/-- `wallToMinuteEpoch` of clock.ts:
`Date.UTC(wall.year, wall.month - 1, wall.day, wall.hour, wall.minute, 0, 0)`,
i.e. the epoch milliseconds obtained by reading the wall fields as if they
were UTC.  Embedded through `daysFromCivil`, including `Date.UTC`'s mapping of
years 0..99 to 1900..1999. -/
def wallToMinuteEpoch (wall : WallTime) : Int :=
  (daysFromCivil (utcYear wall.year) wall.month wall.day * 1440
    + wall.hour * 60 + wall.minute) * 60000

/-- `partsToWall` of clock.ts: forget the `second` field. -/
def partsToWall (parts : ZonedDateTimeParts) : WallTime :=
  { year := parts.year, month := parts.month, day := parts.day,
    hour := parts.hour, minute := parts.minute }

/-- `isSameWallMinute` of clock.ts: equality of all five fields. -/
def isSameWallMinute (a b : WallTime) : Prop :=
  a.year = b.year ∧ a.month = b.month ∧ a.day = b.day ∧
  a.hour = b.hour ∧ a.minute = b.minute

instance (a b : WallTime) : Decidable (isSameWallMinute a b) := by
  unfold isSameWallMinute; infer_instance

theorem isSameWallMinute_iff_eq (a b : WallTime) : isSameWallMinute a b ↔ a = b := by
  unfold isSameWallMinute
  constructor
  · rintro ⟨h1, h2, h3, h4, h5⟩
    cases a; cases b; simp_all
  · rintro rfl; exact ⟨rfl, rfl, rfl, rfl, rfl⟩

/-- `searchWindowMinutes` of `resolveSourceInstant`: `36 * 60`. -/
def searchWindowMinutes : Int := 36 * 60

/-- The loop deltas of `resolveSourceInstant`:
`-searchWindowMinutes, …, searchWindowMinutes` in increasing order. -/
def candidateDeltas : List Int :=
  (List.range (2 * 2160 + 1)).map (fun (i : Nat) => (i : Int) - 2160)

/-- The candidate instants examined by `resolveSourceInstant` for a baseline
instant `base`: `base + delta * 60_000` for each loop delta. -/
def candidates (base : Int) : List Int :=
  candidateDeltas.map (fun d => base + d * 60000)

/-- Wall time a zone projection assigns to an instant (`partsToWall` applied
to `getZonedDateTimeParts`). -/
def wallOf (proj : Int → ZonedDateTimeParts) (ms : Int) : WallTime :=
  partsToWall (proj ms)

/-- `candidateWallEpoch` of the resolver loop: minute epoch of the projected
wall time of an instant. -/
def epochOf (proj : Int → ZonedDateTimeParts) (ms : Int) : Int :=
  wallToMinuteEpoch (wallOf proj ms)

/-- The `nextAfter` loop record of `resolveSourceInstant`. -/
structure AfterRec where
  instantMs : Int
  wallEpoch : Int
  wall : WallTime
deriving DecidableEq, Repr

/-- The `nearest` loop record of `resolveSourceInstant`. -/
structure NearRec where
  instantMs : Int
  wallDiff : Int
  wall : WallTime
deriving DecidableEq, Repr

/-- The record the `nextAfter` update builds from a candidate instant:
`{ instantMs: candidateMs, wallEpoch: candidateWallEpoch, wall: candidateWall }`. -/
def afterRecOf (proj : Int → ZonedDateTimeParts) (ms : Int) : AfterRec :=
  ⟨ms, epochOf proj ms, wallOf proj ms⟩

/-- The record the `nearest` update builds from a candidate instant:
`{ instantMs: candidateMs, wallDiff, wall: candidateWall }`. -/
def nearRecOf (proj : Int → ZonedDateTimeParts) (requestedEpoch ms : Int) : NearRec :=
  ⟨ms, |epochOf proj ms - requestedEpoch|, wallOf proj ms⟩

/-- One iteration of the `nextAfter` accumulator update of the candidate loop
of `resolveSourceInstant` (`candidateWallEpoch` is `epochOf proj candidateMs`,
`candidateWall` is `wallOf proj candidateMs`). -/
def stepNextAfter (proj : Int → ZonedDateTimeParts) (requestedEpoch : Int)
    (acc : Option AfterRec) (candidateMs : Int) : Option AfterRec :=
  if requestedEpoch < epochOf proj candidateMs then
    match acc with
    | none => some (afterRecOf proj candidateMs)
    | some na =>
      if epochOf proj candidateMs < na.wallEpoch ∨
          (epochOf proj candidateMs = na.wallEpoch ∧ candidateMs < na.instantMs) then
        some (afterRecOf proj candidateMs)
      else some na
  else acc

/-- One iteration of the `nearest` accumulator update of the candidate loop of
`resolveSourceInstant` (`wallDiff` is `|epochOf proj candidateMs - requestedEpoch|`). -/
def stepNearest (proj : Int → ZonedDateTimeParts) (requestedEpoch : Int)
    (acc : Option NearRec) (candidateMs : Int) : Option NearRec :=
  match acc with
  | none => some (nearRecOf proj requestedEpoch candidateMs)
  | some nr =>
    if |epochOf proj candidateMs - requestedEpoch| < nr.wallDiff ∨
        (|epochOf proj candidateMs - requestedEpoch| = nr.wallDiff ∧ candidateMs < nr.instantMs) then
      some (nearRecOf proj requestedEpoch candidateMs)
    else some nr

/-- The `exactMatches` array accumulated by the candidate loop: the candidates
whose projected wall time equals the requested wall time at minute
granularity, in loop (= increasing instant) order. -/
def exactMatches (proj : Int → ZonedDateTimeParts) (requestedWall : WallTime) : List Int :=
  (candidates (wallToMinuteEpoch requestedWall)).filter
    (fun ms => isSameWallMinute (wallOf proj ms) requestedWall)

/-- Value of the `nextAfter` accumulator after the candidate loop. -/
def nextAfterRes (proj : Int → ZonedDateTimeParts) (requestedWall : WallTime) :
    Option AfterRec :=
  (candidates (wallToMinuteEpoch requestedWall)).foldl
    (stepNextAfter proj (wallToMinuteEpoch requestedWall)) none

/-- Value of the `nearest` accumulator after the candidate loop. -/
def nearestRes (proj : Int → ZonedDateTimeParts) (requestedWall : WallTime) :
    Option NearRec :=
  (candidates (wallToMinuteEpoch requestedWall)).foldl
    (stepNearest proj (wallToMinuteEpoch requestedWall)) none

/-- `resolveSourceInstant` of clock.ts, for the zone whose projection is
`proj`.  The source accumulates `exactMatches`, `nextAfter` and `nearest` in a
single pass over the candidates; since the three accumulators are updated
independently of each other, the loop is embedded as three separate folds over
the same candidate list.  `Math.min(...exactMatches)` is `foldl min` over the
matches, and the final `length === 1` / `length > 1` / empty classification is
the list pattern match below. -/
def resolveSourceInstant (proj : Int → ZonedDateTimeParts) (requestedWall : WallTime) :
    ConversionResult :=
  let baseUtc := wallToMinuteEpoch requestedWall
  match exactMatches proj requestedWall with
  | [m] => ⟨m, .normal, none⟩
  | m :: rest => ⟨rest.foldl min m, .ambiguous, none⟩
  | [] =>
    match nextAfterRes proj requestedWall with
    | some na => ⟨na.instantMs, .invalidAdjusted, some na.wall⟩
    | none =>
      match nearestRes proj requestedWall with
      | some nr => ⟨nr.instantMs, .invalidAdjusted, some nr.wall⟩
      | none => ⟨baseUtc, .invalidAdjusted, none⟩

/-! ## Calendar arithmetic facts about `daysFromCivil` and `wallToMinuteEpoch` -/

/-- A wall time whose fields are in range and whose date is calendar-valid. -/
def validWall (w : WallTime) : Prop :=
  isValidDate w.year w.month w.day ∧
  0 ≤ w.hour ∧ w.hour ≤ 23 ∧ 0 ≤ w.minute ∧ w.minute ≤ 59

instance (w : WallTime) : Decidable (validWall w) := by unfold validWall; infer_instance

/-- A valid wall time whose year avoids the `Date.UTC` two-digit-year mapping
(years 0..99 are read as 1900..1999 by `Date.UTC`). -/
def safeWall (w : WallTime) : Prop := validWall w ∧ (w.year < 0 ∨ 100 ≤ w.year)

instance (w : WallTime) : Decidable (safeWall w) := by unfold safeWall; infer_instance

/-- Cumulative day count of the months before month `m` in year `y`. -/
def cumDays (y m : Int) : Int :=
  (367 * m - 362) / 12 - (if m ≤ 2 then 0 else 2 - leapDay y)

theorem daysFromCivil_jan1 (y : Int) :
    daysFromCivil y 1 1 =
      365 * (y - 1) + (y - 1) / 4 - (y - 1) / 100 + (y - 1) / 400 - 719162 := by
  simp only [daysFromCivil]
  norm_num
  omega

theorem daysFromCivil_expand (y m d : Int) (h1 : 1 ≤ m) (h2 : m ≤ 12) :
    daysFromCivil y m d = daysFromCivil y 1 1 + cumDays y m + d - 1 := by
  interval_cases m <;>
    · simp only [daysFromCivil, cumDays, leapDay, isLeapYear]
      split_ifs <;> omega

theorem cumDays_one (y : Int) : cumDays y 1 = 0 := by
  simp [cumDays]

theorem cumDays_thirteen (y : Int) : cumDays y 13 = 365 + leapDay y := by
  have hl : leapDay y = 0 ∨ leapDay y = 1 := by
    unfold leapDay; split <;> simp
  simp only [cumDays]
  norm_num
  omega

theorem cumDays_step (y m : Int) (h1 : 1 ≤ m) (h2 : m ≤ 12) :
    cumDays y m + daysInMonth y m = cumDays y (m + 1) := by
  have hl : leapDay y = 0 ∨ leapDay y = 1 := by
    unfold leapDay; split <;> simp
  interval_cases m <;> simp only [cumDays, daysInMonth] <;> norm_num <;> omega

theorem cumDays_mono (y m m' : Int) (h1 : 1 ≤ m) (h2 : m ≤ m') (h3 : m' ≤ 13) :
    cumDays y m ≤ cumDays y m' := by
  have hl : leapDay y = 0 ∨ leapDay y = 1 := by
    unfold leapDay; split <;> simp
  simp only [cumDays]
  split_ifs <;> omega

theorem janEpochDay_succ (y : Int) :
    daysFromCivil (y + 1) 1 1 = daysFromCivil y 1 1 + 365 + leapDay y := by
  rw [daysFromCivil_jan1, daysFromCivil_jan1]
  have hl : leapDay y = 0 ∨ leapDay y = 1 := by
    unfold leapDay; split <;> simp
  unfold leapDay isLeapYear at *
  split_ifs at hl ⊢ <;> omega

theorem janEpochDay_mono (y y' : Int) (h : y ≤ y') :
    daysFromCivil y 1 1 ≤ daysFromCivil y' 1 1 := by
  rw [daysFromCivil_jan1, daysFromCivil_jan1]
  omega

theorem daysFromCivil_lt_of_lex (y m d y' m' d' : Int)
    (hv : isValidDate y m d) (hv' : isValidDate y' m' d')
    (hlex : y < y' ∨ (y = y' ∧ (m < m' ∨ (m = m' ∧ d < d')))) :
    daysFromCivil y m d < daysFromCivil y' m' d' := by
  obtain ⟨hm1, hm2, hd1, hd2⟩ := hv
  obtain ⟨hm1', hm2', hd1', hd2'⟩ := hv'
  rw [daysFromCivil_expand y m d hm1 hm2, daysFromCivil_expand y' m' d' hm1' hm2']
  rcases hlex with hy | ⟨rfl, hmd⟩
  · -- different years: bound the left date by the end of its year and use
    -- the successor identity for January 1st
    have hub : cumDays y m + daysInMonth y m ≤ cumDays y 13 := by
      have := cumDays_step y m hm1 hm2
      have := cumDays_mono y (m + 1) 13 (by omega) (by omega) (by omega)
      omega
    have h13 := cumDays_thirteen y
    have hsucc := janEpochDay_succ y
    have hmono := janEpochDay_mono (y + 1) y' (by omega)
    have hlb : (0 : Int) ≤ cumDays y' m' := by
      have := cumDays_one y'
      have := cumDays_mono y' 1 m' (by omega) (by omega) (by omega)
      omega
    omega
  · rcases hmd with hm | ⟨rfl, hd⟩
    · have hub : cumDays y m + daysInMonth y m ≤ cumDays y m' := by
        have := cumDays_step y m hm1 hm2
        have := cumDays_mono y (m + 1) m' (by omega) (by omega) (by omega)
        omega
      omega
    · omega

theorem daysFromCivil_inj (y m d y' m' d' : Int)
    (hv : isValidDate y m d) (hv' : isValidDate y' m' d')
    (heq : daysFromCivil y m d = daysFromCivil y' m' d') :
    y = y' ∧ m = m' ∧ d = d' := by
  by_contra hne
  have htri : (y < y' ∨ (y = y' ∧ (m < m' ∨ (m = m' ∧ d < d')))) ∨
      (y' < y ∨ (y' = y ∧ (m' < m ∨ (m' = m ∧ d' < d)))) := by
    omega
  rcases htri with h | h
  · have := daysFromCivil_lt_of_lex y m d y' m' d' hv hv' h
    omega
  · have := daysFromCivil_lt_of_lex y' m' d' y m d hv' hv h
    omega

theorem utcYear_eq_self_of_safe (w : WallTime) (h : safeWall w) : utcYear w.year = w.year := by
  obtain ⟨-, h2⟩ := h
  unfold utcYear
  split <;> omega

/-- On wall times that are calendar-valid and outside the two-digit-year
window, `wallToMinuteEpoch` is injective. -/
theorem wallToMinuteEpoch_inj (a b : WallTime)
    (ha : safeWall a) (hb : safeWall b)
    (heq : wallToMinuteEpoch a = wallToMinuteEpoch b) : a = b := by
  obtain ⟨hda, hha0, hha1, hma0, hma1⟩ := ha.1
  obtain ⟨hdb, hhb0, hhb1, hmb0, hmb1⟩ := hb.1
  unfold wallToMinuteEpoch at heq
  rw [utcYear_eq_self_of_safe a ha, utcYear_eq_self_of_safe b hb] at heq
  have hdays : daysFromCivil a.year a.month a.day = daysFromCivil b.year b.month b.day ∧
      a.hour * 60 + a.minute = b.hour * 60 + b.minute := by
    constructor <;> omega
  obtain ⟨hy, hm, hd⟩ :=
    daysFromCivil_inj a.year a.month a.day b.year b.month b.day hda hdb hdays.1
  have htod := hdays.2
  have hh : a.hour = b.hour ∧ a.minute = b.minute := by omega
  cases a; cases b
  simp_all

/-! ## Characterisation of the candidate loop accumulators -/

/-- Lexicographic "no worse" order used by the `nextAfter` update: smaller
projected wall epoch first, ties broken by earlier instant. -/
def afterLe (r s : AfterRec) : Prop :=
  r.wallEpoch < s.wallEpoch ∨ (r.wallEpoch = s.wallEpoch ∧ r.instantMs ≤ s.instantMs)

/-- Lexicographic "no worse" order used by the `nearest` update: smaller
absolute wall-epoch distance first, ties broken by earlier instant. -/
def nearLe (r s : NearRec) : Prop :=
  r.wallDiff < s.wallDiff ∨ (r.wallDiff = s.wallDiff ∧ r.instantMs ≤ s.instantMs)

theorem afterLe_refl (r : AfterRec) : afterLe r r := by unfold afterLe; omega

theorem afterLe_trans {a b c : AfterRec} (h1 : afterLe a b) (h2 : afterLe b c) :
    afterLe a c := by
  unfold afterLe at *; omega

theorem nearLe_refl (r : NearRec) : nearLe r r := by unfold nearLe; omega

theorem nearLe_trans {a b c : NearRec} (h1 : nearLe a b) (h2 : nearLe b c) :
    nearLe a c := by
  unfold nearLe at *; omega

theorem stepNextAfter_on_some (proj : Int → ZonedDateTimeParts) (E : Int)
    (a : AfterRec) (ms : Int) :
    ∃ a', stepNextAfter proj E (some a) ms = some a' ∧ afterLe a' a ∧
      (a' = a ∨ (E < epochOf proj ms ∧ a' = afterRecOf proj ms)) := by
  by_cases h1 : E < epochOf proj ms
  · by_cases h2 : epochOf proj ms < a.wallEpoch ∨
        (epochOf proj ms = a.wallEpoch ∧ ms < a.instantMs)
    · refine ⟨afterRecOf proj ms, ?_, ?_, Or.inr ⟨h1, rfl⟩⟩
      · simp [stepNextAfter, h1, h2]
      · simp only [afterLe, afterRecOf]; omega
    · exact ⟨a, by simp [stepNextAfter, h1, h2], afterLe_refl a, Or.inl rfl⟩
  · exact ⟨a, by simp [stepNextAfter, h1], afterLe_refl a, Or.inl rfl⟩

theorem stepNextAfter_le_new (proj : Int → ZonedDateTimeParts) (E : Int)
    (acc : Option AfterRec) (ms : Int) (h : E < epochOf proj ms) :
    ∃ a', stepNextAfter proj E acc ms = some a' ∧ afterLe a' (afterRecOf proj ms) := by
  cases acc with
  | none => exact ⟨_, by simp [stepNextAfter, h], afterLe_refl _⟩
  | some a =>
    by_cases h2 : epochOf proj ms < a.wallEpoch ∨
        (epochOf proj ms = a.wallEpoch ∧ ms < a.instantMs)
    · exact ⟨_, by simp [stepNextAfter, h, h2], afterLe_refl _⟩
    · refine ⟨a, by simp [stepNextAfter, h, h2], ?_⟩
      simp only [afterLe, afterRecOf]; omega

theorem na_foldl_some_mono (proj : Int → ZonedDateTimeParts) (E : Int) :
    ∀ (l : List Int) (a : AfterRec),
      ∃ r, l.foldl (stepNextAfter proj E) (some a) = some r ∧ afterLe r a := by
  intro l
  induction l with
  | nil => exact fun a => ⟨a, rfl, afterLe_refl a⟩
  | cons ms t ih =>
    intro a
    obtain ⟨a', hstep, hle, -⟩ := stepNextAfter_on_some proj E a ms
    obtain ⟨r, hr, hrle⟩ := ih a'
    exact ⟨r, by simpa [hstep] using hr, afterLe_trans hrle hle⟩

theorem na_foldl_min (proj : Int → ZonedDateTimeParts) (E : Int) :
    ∀ (l : List Int) (acc : Option AfterRec) (r : AfterRec),
      l.foldl (stepNextAfter proj E) acc = some r →
      ∀ ms ∈ l, E < epochOf proj ms → afterLe r (afterRecOf proj ms) := by
  intro l
  induction l with
  | nil => intro acc r h ms hms; simp at hms
  | cons c t ih =>
    intro acc r h ms hms hgt
    simp only [List.foldl_cons] at h
    rcases List.mem_cons.mp hms with rfl | hmem
    · obtain ⟨a', hstep, hle⟩ := stepNextAfter_le_new proj E acc ms hgt
      rw [hstep] at h
      obtain ⟨r', hr', hrle⟩ := na_foldl_some_mono proj E t a'
      rw [hr'] at h
      cases h
      exact afterLe_trans hrle hle
    · exact ih (stepNextAfter proj E acc c) r h ms hmem hgt

theorem na_foldl_mem (proj : Int → ZonedDateTimeParts) (E : Int) :
    ∀ (l : List Int) (acc : Option AfterRec) (r : AfterRec),
      l.foldl (stepNextAfter proj E) acc = some r →
      acc = some r ∨ ∃ ms ∈ l, E < epochOf proj ms ∧ r = afterRecOf proj ms := by
  intro l
  induction l with
  | nil => intro acc r h; simp at h; exact Or.inl (by rw [h])
  | cons c t ih =>
    intro acc r h
    simp only [List.foldl_cons] at h
    rcases ih (stepNextAfter proj E acc c) r h with hacc | ⟨ms, hms, hgt, hrec⟩
    · -- the step result is `some r`: either it was already `acc`, or it was
      -- freshly built from the head candidate
      cases acc with
      | none =>
        unfold stepNextAfter at hacc
        by_cases hc : E < epochOf proj c
        · simp only [if_pos hc] at hacc
          cases hacc
          exact Or.inr ⟨c, List.mem_cons_self c t, hc, rfl⟩
        · simp only [if_neg hc] at hacc
          cases hacc
      | some a =>
        obtain ⟨a', hstep, -, horigin⟩ := stepNextAfter_on_some proj E a c
        rw [hstep] at hacc
        cases hacc
        rcases horigin with rfl | ⟨hgt, rfl⟩
        · exact Or.inl rfl
        · exact Or.inr ⟨c, List.mem_cons_self c t, hgt, rfl⟩
    · exact Or.inr ⟨ms, List.mem_cons_of_mem c hms, hgt, hrec⟩

theorem na_foldl_none (proj : Int → ZonedDateTimeParts) (E : Int) :
    ∀ (l : List Int) (acc : Option AfterRec),
      l.foldl (stepNextAfter proj E) acc = none →
      acc = none ∧ ∀ ms ∈ l, ¬ E < epochOf proj ms := by
  intro l
  induction l with
  | nil => intro acc h; simp at h; exact ⟨h, by simp⟩
  | cons c t ih =>
    intro acc h
    simp only [List.foldl_cons] at h
    obtain ⟨hstep, htail⟩ := ih (stepNextAfter proj E acc c) h
    have hc : ¬ E < epochOf proj c ∧ acc = none := by
      by_cases hgt : E < epochOf proj c
      · obtain ⟨a', ha', -⟩ := stepNextAfter_le_new proj E acc c hgt
        rw [ha'] at hstep
        cases hstep
      · refine ⟨hgt, ?_⟩
        unfold stepNextAfter at hstep
        simp only [if_neg hgt] at hstep
        exact hstep
    exact ⟨hc.2, by
      intro ms hms
      rcases List.mem_cons.mp hms with rfl | hmem
      · exact hc.1
      · exact htail ms hmem⟩

theorem stepNearest_on_some (proj : Int → ZonedDateTimeParts) (E : Int)
    (a : NearRec) (ms : Int) :
    ∃ a', stepNearest proj E (some a) ms = some a' ∧ nearLe a' a ∧
      (a' = a ∨ a' = nearRecOf proj E ms) := by
  by_cases h2 : |epochOf proj ms - E| < a.wallDiff ∨
      (|epochOf proj ms - E| = a.wallDiff ∧ ms < a.instantMs)
  · refine ⟨nearRecOf proj E ms, ?_, ?_, Or.inr rfl⟩
    · simp [stepNearest, h2]
    · simp only [nearLe, nearRecOf]; omega
  · exact ⟨a, by simp [stepNearest, h2], nearLe_refl a, Or.inl rfl⟩

theorem stepNearest_le_new (proj : Int → ZonedDateTimeParts) (E : Int)
    (acc : Option NearRec) (ms : Int) :
    ∃ a', stepNearest proj E acc ms = some a' ∧ nearLe a' (nearRecOf proj E ms) := by
  cases acc with
  | none => exact ⟨_, by simp [stepNearest], nearLe_refl _⟩
  | some a =>
    by_cases h2 : |epochOf proj ms - E| < a.wallDiff ∨
        (|epochOf proj ms - E| = a.wallDiff ∧ ms < a.instantMs)
    · exact ⟨_, by simp [stepNearest, h2], nearLe_refl _⟩
    · refine ⟨a, by simp [stepNearest, h2], ?_⟩
      simp only [nearLe, nearRecOf]; omega

theorem nr_foldl_some_mono (proj : Int → ZonedDateTimeParts) (E : Int) :
    ∀ (l : List Int) (a : NearRec),
      ∃ r, l.foldl (stepNearest proj E) (some a) = some r ∧ nearLe r a := by
  intro l
  induction l with
  | nil => exact fun a => ⟨a, rfl, nearLe_refl a⟩
  | cons ms t ih =>
    intro a
    obtain ⟨a', hstep, hle, -⟩ := stepNearest_on_some proj E a ms
    obtain ⟨r, hr, hrle⟩ := ih a'
    exact ⟨r, by simpa [hstep] using hr, nearLe_trans hrle hle⟩

theorem nr_foldl_min (proj : Int → ZonedDateTimeParts) (E : Int) :
    ∀ (l : List Int) (acc : Option NearRec) (r : NearRec),
      l.foldl (stepNearest proj E) acc = some r →
      ∀ ms ∈ l, nearLe r (nearRecOf proj E ms) := by
  intro l
  induction l with
  | nil => intro acc r h ms hms; simp at hms
  | cons c t ih =>
    intro acc r h ms hms
    simp only [List.foldl_cons] at h
    rcases List.mem_cons.mp hms with rfl | hmem
    · obtain ⟨a', hstep, hle⟩ := stepNearest_le_new proj E acc ms
      rw [hstep] at h
      obtain ⟨r', hr', hrle⟩ := nr_foldl_some_mono proj E t a'
      rw [hr'] at h
      cases h
      exact nearLe_trans hrle hle
    · exact ih (stepNearest proj E acc c) r h ms hmem

theorem nr_foldl_mem (proj : Int → ZonedDateTimeParts) (E : Int) :
    ∀ (l : List Int) (acc : Option NearRec) (r : NearRec),
      l.foldl (stepNearest proj E) acc = some r →
      acc = some r ∨ ∃ ms ∈ l, r = nearRecOf proj E ms := by
  intro l
  induction l with
  | nil => intro acc r h; simp at h; exact Or.inl (by rw [h])
  | cons c t ih =>
    intro acc r h
    simp only [List.foldl_cons] at h
    rcases ih (stepNearest proj E acc c) r h with hacc | ⟨ms, hms, hrec⟩
    · cases acc with
      | none =>
        unfold stepNearest at hacc
        cases hacc
        exact Or.inr ⟨c, List.mem_cons_self c t, rfl⟩
      | some a =>
        obtain ⟨a', hstep, -, horigin⟩ := stepNearest_on_some proj E a c
        rw [hstep] at hacc
        cases hacc
        rcases horigin with rfl | rfl
        · exact Or.inl rfl
        · exact Or.inr ⟨c, List.mem_cons_self c t, rfl⟩
    · exact Or.inr ⟨ms, List.mem_cons_of_mem c hms, hrec⟩

theorem nr_foldl_isSome (proj : Int → ZonedDateTimeParts) (E : Int)
    (l : List Int) (acc : Option NearRec) (hne : l ≠ []) :
    ∃ r, l.foldl (stepNearest proj E) acc = some r := by
  cases l with
  | nil => exact absurd rfl hne
  | cons c t =>
    simp only [List.foldl_cons]
    obtain ⟨a', hstep, -⟩ := stepNearest_le_new proj E acc c
    rw [hstep]
    obtain ⟨r, hr, -⟩ := nr_foldl_some_mono proj E t a'
    exact ⟨r, hr⟩

/-! ## The candidate window and `Math.min` -/

theorem mem_candidateDeltas (d : Int) :
    d ∈ candidateDeltas ↔ -2160 ≤ d ∧ d ≤ 2160 := by
  simp only [candidateDeltas, List.mem_map, List.mem_range]
  constructor
  · rintro ⟨i, hi, rfl⟩
    have hi' : (i : Int) < 4321 := by exact_mod_cast hi
    omega
  · rintro ⟨h1, h2⟩
    refine ⟨(d + 2160).toNat, ?_, ?_⟩
    · have h : ((d + 2160).toNat : Int) = d + 2160 := Int.toNat_of_nonneg (by omega)
      omega
    · have h : ((d + 2160).toNat : Int) = d + 2160 := Int.toNat_of_nonneg (by omega)
      omega

theorem mem_candidates (base ms : Int) :
    ms ∈ candidates base ↔ ∃ k : Int, -2160 ≤ k ∧ k ≤ 2160 ∧ ms = base + k * 60000 := by
  simp only [candidates, List.mem_map, mem_candidateDeltas]
  constructor
  · rintro ⟨d, hd, rfl⟩
    exact ⟨d, hd.1, hd.2, rfl⟩
  · rintro ⟨k, h1, h2, rfl⟩
    exact ⟨k, ⟨h1, h2⟩, rfl⟩

theorem candidateDeltas_nodup : candidateDeltas.Nodup := by
  refine List.Nodup.map ?_ (List.nodup_range _)
  intro a b h
  dsimp only at h
  have h2 : (a : Int) = (b : Int) := by omega
  exact_mod_cast h2

theorem candidates_length (base : Int) : (candidates base).length = 4321 := by
  simp [candidates, candidateDeltas]

theorem candidates_ne_nil (base : Int) : candidates base ≠ [] := by
  intro h
  have := candidates_length base
  rw [h] at this
  simp at this

theorem candidates_nodup (base : Int) : (candidates base).Nodup := by
  refine List.Nodup.map ?_ candidateDeltas_nodup
  intro a b h
  dsimp only at h
  omega

theorem foldl_min_mem (t : List Int) : ∀ m : Int, t.foldl min m = m ∨ t.foldl min m ∈ t := by
  induction t with
  | nil => intro m; exact Or.inl rfl
  | cons c t ih =>
    intro m
    simp only [List.foldl_cons]
    rcases ih (min m c) with h | h
    · rw [h]
      rcases min_choice m c with h2 | h2 <;> rw [h2]
      · exact Or.inl rfl
      · exact Or.inr (List.mem_cons_self c t)
    · exact Or.inr (List.mem_cons_of_mem c h)

theorem foldl_min_le (t : List Int) :
    ∀ m : Int, t.foldl min m ≤ m ∧ ∀ x ∈ t, t.foldl min m ≤ x := by
  induction t with
  | nil => intro m; exact ⟨le_refl m, by simp⟩
  | cons c t ih =>
    intro m
    simp only [List.foldl_cons]
    obtain ⟨h1, h2⟩ := ih (min m c)
    refine ⟨le_trans h1 (min_le_left m c), ?_⟩
    intro x hx
    rcases List.mem_cons.mp hx with rfl | hmem
    · exact le_trans h1 (min_le_right m x)
    · exact h2 x hmem

/-! ## Branch behaviour of `resolveSourceInstant` -/

theorem filter_nodup_singleton {α : Type} (p : α → Bool) :
    ∀ (l : List α), l.Nodup → ∀ a ∈ l, p a = true →
      (∀ x ∈ l, p x = true → x = a) → l.filter p = [a] := by
  intro l
  induction l with
  | nil => intro _ a ha; simp at ha
  | cons c t ih =>
    intro hnd a ha hpa huniq
    rcases List.mem_cons.mp ha with rfl | hmem
    · rw [List.filter_cons_of_pos hpa]
      have ht : t.filter p = [] := by
        rw [List.filter_eq_nil_iff]
        intro x hx hpx
        have := huniq x (List.mem_cons_of_mem a hx) hpx
        subst this
        exact (List.nodup_cons.mp hnd).1 hx
      rw [ht]
    · have hpc : ¬ p c = true := by
        intro hpc
        have := huniq c (List.mem_cons_self c t) hpc
        subst this
        exact (List.nodup_cons.mp hnd).1 hmem
      rw [List.filter_cons_of_neg (by simpa using hpc)]
      exact ih (List.nodup_cons.mp hnd).2 a hmem hpa
        (fun x hx hpx => huniq x (List.mem_cons_of_mem c hx) hpx)

theorem mem_exactMatches (proj : Int → ZonedDateTimeParts) (w : WallTime) (ms : Int) :
    ms ∈ exactMatches proj w ↔
      ms ∈ candidates (wallToMinuteEpoch w) ∧ wallOf proj ms = w := by
  simp only [exactMatches, List.mem_filter, decide_eq_true_eq, isSameWallMinute_iff_eq]

theorem exactMatches_eq_nil_iff (proj : Int → ZonedDateTimeParts) (w : WallTime) :
    exactMatches proj w = [] ↔
      ∀ ms ∈ candidates (wallToMinuteEpoch w), wallOf proj ms ≠ w := by
  simp only [exactMatches, List.filter_eq_nil_iff, decide_eq_true_eq, isSameWallMinute_iff_eq]

theorem exactMatches_eq_singleton (proj : Int → ZonedDateTimeParts) (w : WallTime)
    (m : Int) (hmem : m ∈ candidates (wallToMinuteEpoch w)) (hm : wallOf proj m = w)
    (huniq : ∀ ms ∈ candidates (wallToMinuteEpoch w), wallOf proj ms = w → ms = m) :
    exactMatches proj w = [m] := by
  unfold exactMatches
  refine filter_nodup_singleton _ _ (candidates_nodup _) m hmem ?_ ?_
  · simp [isSameWallMinute_iff_eq, hm]
  · intro x hx hpx
    exact huniq x hx (by simpa [isSameWallMinute_iff_eq] using hpx)

theorem resolve_of_single (proj : Int → ZonedDateTimeParts) (w : WallTime) (m : Int)
    (h : exactMatches proj w = [m]) :
    resolveSourceInstant proj w = ⟨m, .normal, none⟩ := by
  simp only [resolveSourceInstant, h]

theorem resolve_of_multi (proj : Int → ZonedDateTimeParts) (w : WallTime)
    (m m2 : Int) (t : List Int) (h : exactMatches proj w = m :: m2 :: t) :
    resolveSourceInstant proj w = ⟨(m2 :: t).foldl min m, .ambiguous, none⟩ := by
  simp only [resolveSourceInstant, h]

theorem resolve_of_empty_nextAfter (proj : Int → ZonedDateTimeParts) (w : WallTime)
    (na : AfterRec) (h : exactMatches proj w = []) (hna : nextAfterRes proj w = some na) :
    resolveSourceInstant proj w = ⟨na.instantMs, .invalidAdjusted, some na.wall⟩ := by
  simp only [resolveSourceInstant, h, hna]

theorem resolve_of_empty_nearest (proj : Int → ZonedDateTimeParts) (w : WallTime)
    (nr : NearRec) (h : exactMatches proj w = []) (hna : nextAfterRes proj w = none)
    (hnr : nearestRes proj w = some nr) :
    resolveSourceInstant proj w = ⟨nr.instantMs, .invalidAdjusted, some nr.wall⟩ := by
  simp only [resolveSourceInstant, h, hna, hnr]

theorem resolve_of_empty_empty (proj : Int → ZonedDateTimeParts) (w : WallTime)
    (h : exactMatches proj w = []) (hna : nextAfterRes proj w = none)
    (hnr : nearestRes proj w = none) :
    resolveSourceInstant proj w = ⟨wallToMinuteEpoch w, .invalidAdjusted, none⟩ := by
  simp only [resolveSourceInstant, h, hna, hnr]

theorem nearestRes_isSome (proj : Int → ZonedDateTimeParts) (w : WallTime) :
    ∃ nr, nearestRes proj w = some nr := by
  exact nr_foldl_isSome proj (wallToMinuteEpoch w) _ none (candidates_ne_nil _)

/-- The resolver classifies "no exact match in the window" as
`invalid-adjusted`; a unique or repeated match is `normal`/`ambiguous`. -/
theorem status_invalidAdjusted_iff (proj : Int → ZonedDateTimeParts) (w : WallTime) :
    (resolveSourceInstant proj w).status = .invalidAdjusted ↔ exactMatches proj w = [] := by
  rcases hml : exactMatches proj w with _ | ⟨m, _ | ⟨m2, t⟩⟩
  · refine ⟨fun _ => rfl, fun _ => ?_⟩
    rcases hna : nextAfterRes proj w with _ | na
    · rcases hnr : nearestRes proj w with _ | nr
      · rw [resolve_of_empty_empty proj w hml hna hnr]
      · rw [resolve_of_empty_nearest proj w nr hml hna hnr]
    · rw [resolve_of_empty_nextAfter proj w na hml hna]
  · rw [resolve_of_single proj w m hml]
    simp
  · rw [resolve_of_multi proj w m m2 t hml]
    simp

theorem na_foldl_isSome_of_mem (proj : Int → ZonedDateTimeParts) (E : Int) :
    ∀ (l : List Int) (acc : Option AfterRec),
      (∃ ms ∈ l, E < epochOf proj ms) →
      ∃ r, l.foldl (stepNextAfter proj E) acc = some r := by
  intro l
  induction l with
  | nil => rintro acc ⟨ms, hms, -⟩; simp at hms
  | cons c t ih =>
    rintro acc ⟨ms, hms, hgt⟩
    simp only [List.foldl_cons]
    rcases List.mem_cons.mp hms with rfl | hmem
    · obtain ⟨a', hstep, -⟩ := stepNextAfter_le_new proj E acc ms hgt
      rw [hstep]
      obtain ⟨r, hr, -⟩ := na_foldl_some_mono proj E t a'
      exact ⟨r, hr⟩
    · exact ih (stepNextAfter proj E acc c) ⟨ms, hmem, hgt⟩

theorem na_foldl_eq_none (proj : Int → ZonedDateTimeParts) (E : Int) :
    ∀ l : List Int, (∀ ms ∈ l, ¬ E < epochOf proj ms) →
      l.foldl (stepNextAfter proj E) none = none := by
  intro l
  induction l with
  | nil => intro; rfl
  | cons c t ih =>
    intro h
    simp only [List.foldl_cons]
    have hc : stepNextAfter proj E none c = none := by
      unfold stepNextAfter
      rw [if_neg (h c (List.mem_cons_self c t))]
    rw [hc]
    exact ih (fun ms hms => h ms (List.mem_cons_of_mem c hms))

/-! ## The claims -/

set_option maxRecDepth 100000

/-- C1: for every zone projection and requested wall time, the resolver
classifies by the number of candidate instants whose projection equals the
requested wall time at minute granularity: a unique match yields `normal` with
that instant, two or more matches yield `ambiguous` with the smallest matching
instant. -/
theorem claim_C1_match_classification (proj : Int → ZonedDateTimeParts) (w : WallTime) :
    (∀ m : Int, exactMatches proj w = [m] →
      resolveSourceInstant proj w = ⟨m, .normal, none⟩) ∧
    (2 ≤ (exactMatches proj w).length →
      (resolveSourceInstant proj w).status = .ambiguous ∧
      (resolveSourceInstant proj w).instantMs ∈ exactMatches proj w ∧
      ∀ m ∈ exactMatches proj w, (resolveSourceInstant proj w).instantMs ≤ m) := by
  constructor
  · exact fun m h => resolve_of_single proj w m h
  · intro hlen
    rcases hml : exactMatches proj w with _ | ⟨m, _ | ⟨m2, t⟩⟩
    · rw [hml] at hlen; simp at hlen
    · rw [hml] at hlen; simp at hlen
    · rw [resolve_of_multi proj w m m2 t hml]
      refine ⟨rfl, ?_, ?_⟩
      · rcases foldl_min_mem (m2 :: t) m with h | h
        · rw [h]; exact List.mem_cons_self m _
        · exact List.mem_cons_of_mem m h
      · intro x hx
        obtain ⟨h1, h2⟩ := foldl_min_le (m2 :: t) m
        rcases List.mem_cons.mp hx with rfl | hmem
        · exact h1
        · exact h2 x hmem

/-- Witness for C1: a projection matching the requested 1970-01-01 00:00 wall
time at exactly one candidate, and one matching it at two candidates. -/
def wallEpoch0 : WallTime := ⟨1970, 1, 1, 0, 0⟩

/-- A zone projection with exactly one candidate projecting to
1970-01-01 00:00. -/
def projOneMatch : Int → ZonedDateTimeParts := fun ms =>
  if ms = 60000 then ⟨1970, 1, 1, 0, 0, 0⟩ else ⟨1970, 1, 2, 0, 0, 0⟩

/-- A zone projection with exactly two candidates projecting to
1970-01-01 00:00 (a fall-back-style repetition one hour apart). -/
def projTwoMatches : Int → ZonedDateTimeParts := fun ms =>
  if ms = 0 ∨ ms = 3600000 then ⟨1970, 1, 1, 0, 0, 0⟩ else ⟨1970, 1, 2, 0, 0, 0⟩

theorem claim_C1_witness :
    resolveSourceInstant projOneMatch wallEpoch0 = ⟨60000, .normal, none⟩ ∧
    (resolveSourceInstant projTwoMatches wallEpoch0).status = .ambiguous ∧
    (resolveSourceInstant projTwoMatches wallEpoch0).instantMs ∈
      exactMatches projTwoMatches wallEpoch0 := by
  refine ⟨(claim_C1_match_classification projOneMatch wallEpoch0).1 60000 (by decide),
    ((claim_C1_match_classification projTwoMatches wallEpoch0).2 (by decide)).1,
    ((claim_C1_match_classification projTwoMatches wallEpoch0).2 (by decide)).2.1⟩

/-- C3 as stated is false: the symmetric 36-hour window at one-minute
resolution contains 2 · 2160 + 1 = 4321 candidates, not 2161. -/
theorem claim_C3_counterexample :
    (candidates (wallToMinuteEpoch ⟨2024, 1, 15, 12, 0⟩)).length ≠ 2161 := by
  rw [candidates_length]
  decide

/-- C3 amended: the resolver enumerates candidates at one-minute resolution in
a symmetric window of 36 hours (2160 minutes) before and after the baseline
instant obtained by reading the wall fields as UTC, for a total of exactly
4321 candidates. -/
theorem claim_C3_window (w : WallTime) :
    (candidates (wallToMinuteEpoch w)).length = 4321 ∧
    ∀ ms : Int, ms ∈ candidates (wallToMinuteEpoch w) ↔
      ∃ k : Int, -2160 ≤ k ∧ k ≤ 2160 ∧ ms = wallToMinuteEpoch w + k * 60000 :=
  ⟨candidates_length _, fun ms => mem_candidates _ ms⟩

/-- C7: the resolver is a total function: every input yields a
`ConversionResult` whose status is one of the three classifications, and the
absence of an exact match is reported as the `invalid-adjusted`
classification, not a failure. -/
theorem claim_C7_totality (proj : Int → ZonedDateTimeParts) (w : WallTime) :
    ((resolveSourceInstant proj w).status = .normal ∨
     (resolveSourceInstant proj w).status = .ambiguous ∨
     (resolveSourceInstant proj w).status = .invalidAdjusted) ∧
    ((resolveSourceInstant proj w).status = .invalidAdjusted ↔
      exactMatches proj w = []) := by
  constructor
  · cases h : (resolveSourceInstant proj w).status
    · exact Or.inl rfl
    · exact Or.inr (Or.inl rfl)
    · exact Or.inr (Or.inr rfl)
  · exact status_invalidAdjusted_iff proj w

/-- C9: the candidate loop always examines at least one candidate, so the
`nearest` record is never null and the final baseline-only fallback is
unreachable: every `invalid-adjusted` result carries an adjusted wall time. -/
theorem claim_C9_no_bare_fallback (proj : Int → ZonedDateTimeParts) (w : WallTime) :
    candidates (wallToMinuteEpoch w) ≠ [] ∧
    ((resolveSourceInstant proj w).status = .invalidAdjusted →
      (resolveSourceInstant proj w).adjustedWall ≠ none) := by
  refine ⟨candidates_ne_nil _, fun hst => ?_⟩
  have hml := (status_invalidAdjusted_iff proj w).mp hst
  rcases hna : nextAfterRes proj w with _ | na
  · obtain ⟨nr, hnr⟩ := nearestRes_isSome proj w
    rw [resolve_of_empty_nearest proj w nr hml hna hnr]
    simp
  · rw [resolve_of_empty_nextAfter proj w na hml hna]
    simp

/-- A zone projection mapping every instant to 1970-01-01 01:00 (so the
request 1970-01-01 00:00 has no match and the window has candidates with
strictly later projected wall times). -/
def projAllLater : Int → ZonedDateTimeParts := fun _ => ⟨1970, 1, 1, 1, 0, 0⟩

theorem claim_C9_witness :
    (resolveSourceInstant projAllLater wallEpoch0).status = .invalidAdjusted ∧
    (resolveSourceInstant projAllLater wallEpoch0).adjustedWall ≠ none := by
  have hst : (resolveSourceInstant projAllLater wallEpoch0).status = .invalidAdjusted := by
    rw [status_invalidAdjusted_iff]
    decide
  exact ⟨hst, (claim_C9_no_bare_fallback projAllLater wallEpoch0).2 hst⟩

/-- The candidates whose projected wall time is strictly later than the
requested wall time, compared by linear minute count (the pool from which the
`nextAfter` record is drawn). -/
def laterCandidates (proj : Int → ZonedDateTimeParts) (w : WallTime) : List Int :=
  (candidates (wallToMinuteEpoch w)).filter
    (fun ms => wallToMinuteEpoch w < epochOf proj ms)

theorem mem_laterCandidates (proj : Int → ZonedDateTimeParts) (w : WallTime) (ms : Int) :
    ms ∈ laterCandidates proj w ↔
      ms ∈ candidates (wallToMinuteEpoch w) ∧ wallToMinuteEpoch w < epochOf proj ms := by
  simp only [laterCandidates, List.mem_filter, decide_eq_true_eq]

/-- C2: when no candidate matches exactly, the resolver returns
`invalid-adjusted` and picks the replacement instant by priority: (a) the
candidate with the smallest projected wall time strictly later than the
request, ties broken by earliest instant; (b) failing that, the candidate with
the numerically closest projected wall time, ties broken by earliest instant;
(c) failing all candidates, the naive baseline with no adjusted wall.  The
adjusted wall is the chosen candidate's projected wall time, always differs
from the requested wall time, and is populated only on `invalid-adjusted`
results. -/
theorem claim_C2_invalid_priority (proj : Int → ZonedDateTimeParts) (w : WallTime) :
    ((resolveSourceInstant proj w).adjustedWall ≠ none →
      (resolveSourceInstant proj w).status = .invalidAdjusted) ∧
    (exactMatches proj w = [] →
      (resolveSourceInstant proj w).status = .invalidAdjusted ∧
      (laterCandidates proj w ≠ [] →
        (resolveSourceInstant proj w).instantMs ∈ laterCandidates proj w ∧
        (∀ ms ∈ laterCandidates proj w,
          epochOf proj (resolveSourceInstant proj w).instantMs < epochOf proj ms ∨
          (epochOf proj (resolveSourceInstant proj w).instantMs = epochOf proj ms ∧
            (resolveSourceInstant proj w).instantMs ≤ ms)) ∧
        (resolveSourceInstant proj w).adjustedWall =
          some (wallOf proj (resolveSourceInstant proj w).instantMs)) ∧
      (laterCandidates proj w = [] → candidates (wallToMinuteEpoch w) ≠ [] →
        (resolveSourceInstant proj w).instantMs ∈ candidates (wallToMinuteEpoch w) ∧
        (∀ ms ∈ candidates (wallToMinuteEpoch w),
          |epochOf proj (resolveSourceInstant proj w).instantMs - wallToMinuteEpoch w| <
            |epochOf proj ms - wallToMinuteEpoch w| ∨
          (|epochOf proj (resolveSourceInstant proj w).instantMs - wallToMinuteEpoch w| =
            |epochOf proj ms - wallToMinuteEpoch w| ∧
            (resolveSourceInstant proj w).instantMs ≤ ms)) ∧
        (resolveSourceInstant proj w).adjustedWall =
          some (wallOf proj (resolveSourceInstant proj w).instantMs)) ∧
      (candidates (wallToMinuteEpoch w) = [] →
        resolveSourceInstant proj w = ⟨wallToMinuteEpoch w, .invalidAdjusted, none⟩) ∧
      (∀ w', (resolveSourceInstant proj w).adjustedWall = some w' → w' ≠ w)) := by
  constructor
  · intro hne
    by_contra hst
    have : exactMatches proj w ≠ [] := by
      intro hml
      exact hst ((status_invalidAdjusted_iff proj w).mpr hml)
    rcases hml : exactMatches proj w with _ | ⟨m, _ | ⟨m2, t⟩⟩
    · exact this hml
    · rw [resolve_of_single proj w m hml] at hne
      exact hne rfl
    · rw [resolve_of_multi proj w m m2 t hml] at hne
      exact hne rfl
  · intro hml
    refine ⟨(status_invalidAdjusted_iff proj w).mpr hml, ?_, ?_, ?_, ?_⟩
    · -- priority (a): some candidate has a strictly later projected wall time
      intro hA
      obtain ⟨ms0, hms0⟩ := List.exists_mem_of_ne_nil _ hA
      obtain ⟨hms0c, hms0gt⟩ := (mem_laterCandidates proj w ms0).mp hms0
      obtain ⟨na, hna⟩ :=
        na_foldl_isSome_of_mem proj (wallToMinuteEpoch w) _ none ⟨ms0, hms0c, hms0gt⟩
      have hres := resolve_of_empty_nextAfter proj w na hml hna
      rcases na_foldl_mem proj (wallToMinuteEpoch w) _ none na hna with hcon | ⟨msa, hmsa, hgta, rfl⟩
      · exact absurd hcon (by simp)
      · rw [hres]
        refine ⟨(mem_laterCandidates proj w msa).mpr ⟨hmsa, hgta⟩, ?_, rfl⟩
        intro ms hms
        obtain ⟨hmsc, hmsgt⟩ := (mem_laterCandidates proj w ms).mp hms
        have := na_foldl_min proj (wallToMinuteEpoch w) _ none _ hna ms hmsc hmsgt
        unfold afterLe afterRecOf at this
        simpa using this
    · -- priority (b): no later candidate, fall back to the nearest one
      intro hA _hcand
      have hnone : nextAfterRes proj w = none := by
        unfold nextAfterRes
        apply na_foldl_eq_none
        intro ms hms hgt
        have : ms ∈ laterCandidates proj w := (mem_laterCandidates proj w ms).mpr ⟨hms, hgt⟩
        rw [hA] at this
        simp at this
      obtain ⟨nr, hnr⟩ := nearestRes_isSome proj w
      have hres := resolve_of_empty_nearest proj w nr hml hnone hnr
      rcases nr_foldl_mem proj (wallToMinuteEpoch w) _ none nr hnr with hcon | ⟨msn, hmsn, rfl⟩
      · exact absurd hcon (by simp)
      · rw [hres]
        refine ⟨hmsn, ?_, rfl⟩
        intro ms hms
        have := nr_foldl_min proj (wallToMinuteEpoch w) _ none _ hnr ms hms
        unfold nearLe nearRecOf at this
        simpa using this
    · -- priority (c) is vacuous: the window is never empty
      intro hcand
      exact absurd hcand (candidates_ne_nil _)
    · -- the adjusted wall always differs from the requested wall time
      intro w' hadj
      rcases hna : nextAfterRes proj w with _ | na
      · obtain ⟨nr, hnr⟩ := nearestRes_isSome proj w
        rw [resolve_of_empty_nearest proj w nr hml hna hnr] at hadj
        rcases nr_foldl_mem proj (wallToMinuteEpoch w) _ none nr hnr with hcon | ⟨msn, hmsn, rfl⟩
        · exact absurd hcon (by simp)
        · simp only [Option.some.injEq] at hadj
          subst hadj
          exact (exactMatches_eq_nil_iff proj w).mp hml msn hmsn
      · rw [resolve_of_empty_nextAfter proj w na hml hna] at hadj
        rcases na_foldl_mem proj (wallToMinuteEpoch w) _ none na hna with hcon | ⟨msa, hmsa, -, rfl⟩
        · exact absurd hcon (by simp)
        · simp only [Option.some.injEq] at hadj
          subst hadj
          exact (exactMatches_eq_nil_iff proj w).mp hml msa hmsa

/-- A zone projection mapping every instant to 1969-12-31 00:00, one day
before the requested wall time (no match, and no candidate projects later, so
the `nearest` fallback is exercised). -/
def projAllEarlier : Int → ZonedDateTimeParts := fun _ => ⟨1969, 12, 31, 0, 0, 0⟩

theorem claim_C2_witness :
    (resolveSourceInstant projAllLater wallEpoch0).instantMs ∈
      laterCandidates projAllLater wallEpoch0 ∧
    (resolveSourceInstant projAllLater wallEpoch0).adjustedWall =
      some (wallOf projAllLater (resolveSourceInstant projAllLater wallEpoch0).instantMs) ∧
    (resolveSourceInstant projAllEarlier wallEpoch0).instantMs ∈
      candidates (wallToMinuteEpoch wallEpoch0) ∧
    (∀ w', (resolveSourceInstant projAllEarlier wallEpoch0).adjustedWall = some w' →
      w' ≠ wallEpoch0) := by
  have hmlL : exactMatches projAllLater wallEpoch0 = [] := by
    rw [exactMatches_eq_nil_iff]
    intro ms _ h
    simp [wallOf, projAllLater, partsToWall, wallEpoch0] at h
  have hmlE : exactMatches projAllEarlier wallEpoch0 = [] := by
    rw [exactMatches_eq_nil_iff]
    intro ms _ h
    simp [wallOf, projAllEarlier, partsToWall, wallEpoch0] at h
  have h0mem : (0 : Int) ∈ candidates (wallToMinuteEpoch wallEpoch0) :=
    (mem_candidates _ 0).mpr ⟨0, by decide, by decide, by decide⟩
  have hA : laterCandidates projAllLater wallEpoch0 ≠ [] :=
    List.ne_nil_of_mem ((mem_laterCandidates projAllLater wallEpoch0 0).mpr
      ⟨h0mem, by decide⟩)
  have hAE : laterCandidates projAllEarlier wallEpoch0 = [] := by
    unfold laterCandidates
    rw [List.filter_eq_nil_iff]
    intro ms _
    simp only [decide_eq_true_eq]
    show ¬ wallToMinuteEpoch wallEpoch0 < epochOf projAllEarlier ms
    have he : epochOf projAllEarlier ms = wallToMinuteEpoch ⟨1969, 12, 31, 0, 0⟩ := rfl
    rw [he]
    decide
  have h1 := (claim_C2_invalid_priority projAllLater wallEpoch0).2 hmlL
  have h2 := (claim_C2_invalid_priority projAllEarlier wallEpoch0).2 hmlE
  exact ⟨(h1.2.1 hA).1, (h1.2.1 hA).2.2,
    (h2.2.2.1 hAE (candidates_ne_nil _)).1, h2.2.2.2.2⟩

/-! ## Zone models

The repository's zone projections come from the platform's `Intl` rule
database (spec §4.1).  The classes below model, per spec §4.2, the two shapes
the resolver is designed for: fixed-offset zones (no DST) and zones with a
single offset transition inside the examined window.  Offsets and transition
instants are whole minutes, offsets stay within the ±36 h search half-window
(spec §4.2 step 2: the window "must exceed the largest plausible UTC-offset
swing … with margin"), and projected wall times are calendar-valid with years
outside 0..99 (the `Date.UTC` two-digit-year window). -/

/-- The search half-window in milliseconds: 2160 minutes. -/
def windowMs : Int := 2160 * 60000

theorem wallToMinuteEpoch_mod (w : WallTime) : wallToMinuteEpoch w % 60000 = 0 := by
  unfold wallToMinuteEpoch
  omega

theorem candidate_facts {w : WallTime} {ms : Int}
    (h : ms ∈ candidates (wallToMinuteEpoch w)) :
    ms % 60000 = 0 ∧ wallToMinuteEpoch w - windowMs ≤ ms ∧
      ms ≤ wallToMinuteEpoch w + windowMs := by
  obtain ⟨k, h1, h2, rfl⟩ := (mem_candidates _ _).mp h
  have := wallToMinuteEpoch_mod w
  unfold windowMs
  omega

theorem mem_candidates_of (E : Int) (hE : E % 60000 = 0) (m : Int) (hm : m % 60000 = 0)
    (h1 : E - windowMs ≤ m) (h2 : m ≤ E + windowMs) : m ∈ candidates E := by
  unfold windowMs at h1 h2
  exact (mem_candidates E m).mpr ⟨(m - E) / 60000, by omega, by omega, by omega⟩

/-- Modelled from the spec (§4.1/§4.2): a zone with no DST, whose projection
maps every instant in the examined window by one fixed offset `o` (in
milliseconds).  `E` is the baseline epoch around which the window is
centred. -/
structure FixedOffsetZone (proj : Int → ZonedDateTimeParts) (o E : Int) : Prop where
  grid : o % 60000 = 0
  lower : -windowMs ≤ o
  upper : o ≤ windowMs
  proj_spec : ∀ ms : Int, ms % 60000 = 0 → E - 3 * windowMs ≤ ms →
    ms ≤ E + 3 * windowMs → safeWall (wallOf proj ms) ∧ epochOf proj ms = ms + o

/-- C5: for a zone with no DST (fixed-offset projection) and a calendar-valid
wall time (outside the two-digit-year window of `Date.UTC`), the resolver
returns `normal`, and projecting the returned instant back into the zone via
`getZonedDateTimeParts` reproduces the requested wall time exactly at minute
granularity. -/
theorem claim_C5_fixed_offset_roundtrip (proj : Int → ZonedDateTimeParts)
    (w : WallTime) (o : Int) (hw : safeWall w)
    (hz : FixedOffsetZone proj o (wallToMinuteEpoch w)) :
    (resolveSourceInstant proj w).status = .normal ∧
    partsToWall (proj (resolveSourceInstant proj w).instantMs) = w := by
  have hE60 := wallToMinuteEpoch_mod w
  have hm60 : (wallToMinuteEpoch w - o) % 60000 = 0 := by
    have := hz.grid
    omega
  have hmlo : wallToMinuteEpoch w - windowMs ≤ wallToMinuteEpoch w - o := by
    have := hz.upper; omega
  have hmhi : wallToMinuteEpoch w - o ≤ wallToMinuteEpoch w + windowMs := by
    have := hz.lower; omega
  have hmem : wallToMinuteEpoch w - o ∈ candidates (wallToMinuteEpoch w) :=
    mem_candidates_of _ hE60 _ hm60 hmlo hmhi
  obtain ⟨hsafe, hepoch⟩ := hz.proj_spec (wallToMinuteEpoch w - o) hm60
    (by have := hz.upper; unfold windowMs at *; omega)
    (by have := hz.lower; unfold windowMs at *; omega)
  have hmatch : wallOf proj (wallToMinuteEpoch w - o) = w := by
    apply wallToMinuteEpoch_inj _ _ hsafe hw
    show epochOf proj (wallToMinuteEpoch w - o) = wallToMinuteEpoch w
    omega
  have huniq : ∀ ms ∈ candidates (wallToMinuteEpoch w), wallOf proj ms = w →
      ms = wallToMinuteEpoch w - o := by
    intro ms hms hwall
    obtain ⟨h60, hlo, hhi⟩ := candidate_facts hms
    obtain ⟨-, hep⟩ := hz.proj_spec ms h60 (by unfold windowMs at *; omega)
      (by unfold windowMs at *; omega)
    have : epochOf proj ms = wallToMinuteEpoch w := by
      unfold epochOf
      rw [hwall]
    omega
  have hsingle : exactMatches proj w = [wallToMinuteEpoch w - o] :=
    exactMatches_eq_singleton proj w _ hmem hmatch huniq
  rw [resolve_of_single proj w _ hsingle]
  exact ⟨rfl, hmatch⟩

/-- Modelled from the spec (§4.1/§4.2): a zone whose projection applies offset
`o1` to instants before the transition instant `T` and offset `o2` from `T`
on (a spring-forward transition when `o1 < o2`), within the examined window
around the baseline epoch `E`. -/
structure SingleTransitionZone (proj : Int → ZonedDateTimeParts)
    (o1 o2 T E : Int) : Prop where
  grid1 : o1 % 60000 = 0
  grid2 : o2 % 60000 = 0
  gridT : T % 60000 = 0
  lower1 : -windowMs ≤ o1
  upper1 : o1 ≤ windowMs
  lower2 : -windowMs ≤ o2
  upper2 : o2 ≤ windowMs
  proj_spec : ∀ ms : Int, ms % 60000 = 0 → E - 3 * windowMs ≤ ms →
    ms ≤ E + 3 * windowMs →
    safeWall (wallOf proj ms) ∧ epochOf proj ms = ms + (if ms < T then o1 else o2)

theorem stz_exactMatches_nil {proj : Int → ZonedDateTimeParts} {o1 o2 T : Int}
    {w : WallTime}
    (hz : SingleTransitionZone proj o1 o2 T (wallToMinuteEpoch w))
    (hgap1 : T + o1 ≤ wallToMinuteEpoch w) (hgap2 : wallToMinuteEpoch w < T + o2) :
    exactMatches proj w = [] := by
  rw [exactMatches_eq_nil_iff]
  intro ms hms hwall
  obtain ⟨h60, hlo, hhi⟩ := candidate_facts hms
  obtain ⟨-, hep⟩ := hz.proj_spec ms h60 (by unfold windowMs at *; omega)
    (by unfold windowMs at *; omega)
  have heq : epochOf proj ms = wallToMinuteEpoch w := by
    unfold epochOf
    rw [hwall]
  by_cases hlt : ms < T
  · rw [if_pos hlt] at hep
    omega
  · rw [if_neg hlt] at hep
    omega

theorem stz_T_facts {proj : Int → ZonedDateTimeParts} {o1 o2 T : Int} {w : WallTime}
    (hz : SingleTransitionZone proj o1 o2 T (wallToMinuteEpoch w))
    (hgap1 : T + o1 ≤ wallToMinuteEpoch w) (hgap2 : wallToMinuteEpoch w < T + o2) :
    T ∈ candidates (wallToMinuteEpoch w) ∧ safeWall (wallOf proj T) ∧
      epochOf proj T = T + o2 := by
  have hE60 := wallToMinuteEpoch_mod w
  have hTmem : T ∈ candidates (wallToMinuteEpoch w) := by
    refine mem_candidates_of _ hE60 T hz.gridT ?_ ?_
    · have := hz.lower2; have := hz.upper2; omega
    · have := hz.lower1; have := hz.upper1; omega
  obtain ⟨hsafe, hep⟩ := hz.proj_spec T hz.gridT
    (by have := hz.lower2; have := hz.upper2; unfold windowMs at *; omega)
    (by have := hz.lower1; have := hz.upper1; unfold windowMs at *; omega)
  rw [if_neg (lt_irrefl T)] at hep
  exact ⟨hTmem, hsafe, hep⟩

/-- In a spring-forward gap, the resolver adjusts to the transition instant
`T` (the first instant whose projected wall time lies after the gap) and
reports its projected wall time. -/
theorem stz_gap_resolve {proj : Int → ZonedDateTimeParts} {o1 o2 T : Int}
    {w : WallTime} (hz : SingleTransitionZone proj o1 o2 T (wallToMinuteEpoch w))
    (hgap1 : T + o1 ≤ wallToMinuteEpoch w) (hgap2 : wallToMinuteEpoch w < T + o2) :
    resolveSourceInstant proj w = ⟨T, .invalidAdjusted, some (wallOf proj T)⟩ := by
  have hml := stz_exactMatches_nil hz hgap1 hgap2
  obtain ⟨hTmem, hTsafe, hTepoch⟩ := stz_T_facts hz hgap1 hgap2
  have hTgt : wallToMinuteEpoch w < epochOf proj T := by omega
  obtain ⟨na, hna⟩ := na_foldl_isSome_of_mem proj (wallToMinuteEpoch w) _ none
    ⟨T, hTmem, hTgt⟩
  rcases na_foldl_mem proj (wallToMinuteEpoch w) _ none na hna with hcon | ⟨msa, hmsa, hgta, rfl⟩
  · exact absurd hcon (by simp)
  · -- every candidate with a later projected wall time is at or after `T`,
    -- and its projected epoch is its instant plus `o2`; the lexicographic
    -- minimum is therefore attained exactly at `T`
    have hchar : ∀ ms ∈ candidates (wallToMinuteEpoch w),
        wallToMinuteEpoch w < epochOf proj ms → T ≤ ms ∧ epochOf proj ms = ms + o2 := by
      intro ms hms hgt
      obtain ⟨h60, hlo, hhi⟩ := candidate_facts hms
      obtain ⟨-, hep⟩ := hz.proj_spec ms h60 (by unfold windowMs at *; omega)
        (by unfold windowMs at *; omega)
      by_cases hlt : ms < T
      · rw [if_pos hlt] at hep
        omega
      · rw [if_neg hlt] at hep
        exact ⟨by omega, hep⟩
    obtain ⟨hTlea, hepa⟩ := hchar msa hmsa hgta
    have hmin := na_foldl_min proj (wallToMinuteEpoch w) _ none _ hna T hTmem hTgt
    unfold afterLe afterRecOf at hmin
    simp only at hmin
    have hmsaT : msa = T := by omega
    subst hmsaT
    rw [resolve_of_empty_nextAfter proj w _ hml hna]
    simp [afterRecOf]

/-- Re-resolving the adjusted wall time of a spring-forward gap yields a
unique match at the transition instant itself. -/
theorem stz_after_resolve {proj : Int → ZonedDateTimeParts} {o1 o2 T : Int}
    {w : WallTime} (hz : SingleTransitionZone proj o1 o2 T (wallToMinuteEpoch w))
    (hgap1 : T + o1 ≤ wallToMinuteEpoch w) (hgap2 : wallToMinuteEpoch w < T + o2) :
    resolveSourceInstant proj (wallOf proj T) = ⟨T, .normal, none⟩ := by
  obtain ⟨hTmem, hTsafe, hTepoch⟩ := stz_T_facts hz hgap1 hgap2
  have hE60 := wallToMinuteEpoch_mod w
  have hE'60 := wallToMinuteEpoch_mod (wallOf proj T)
  have hE' : wallToMinuteEpoch (wallOf proj T) = T + o2 := hTepoch
  have ho1o2 : o1 < o2 := by omega
  have hTmem' : T ∈ candidates (wallToMinuteEpoch (wallOf proj T)) := by
    refine mem_candidates_of _ hE'60 T hz.gridT ?_ ?_
    · have := hz.upper2; omega
    · have := hz.lower2; omega
  have huniq : ∀ ms ∈ candidates (wallToMinuteEpoch (wallOf proj T)),
      wallOf proj ms = wallOf proj T → ms = T := by
    intro ms hms hwall
    obtain ⟨h60, hlo, hhi⟩ := candidate_facts hms
    rw [hE'] at hlo hhi
    obtain ⟨-, hep⟩ := hz.proj_spec ms h60
      (by
        have := hz.lower1; have := hz.upper1
        have := hz.lower2; have := hz.upper2
        unfold windowMs at *; omega)
      (by
        have := hz.lower1; have := hz.upper1
        have := hz.lower2; have := hz.upper2
        unfold windowMs at *; omega)
    have heq : epochOf proj ms = T + o2 := by
      unfold epochOf
      rw [hwall]
      exact hE'
    by_cases hlt : ms < T
    · rw [if_pos hlt] at hep
      omega
    · rw [if_neg hlt] at hep
      omega
  have hsingle : exactMatches proj (wallOf proj T) = [T] :=
    exactMatches_eq_singleton proj _ T hTmem' rfl huniq
  exact resolve_of_single proj _ T hsingle

/-- C4: if resolving `w` in a single-transition zone yields `invalid-adjusted`
with adjusted wall time `w'`, then resolving `w'` yields `normal` with the
same instant. -/
theorem claim_C4_adjustment_idempotent (proj : Int → ZonedDateTimeParts)
    (w w' : WallTime) (o1 o2 T : Int) (hw : safeWall w)
    (hz : SingleTransitionZone proj o1 o2 T (wallToMinuteEpoch w))
    (hst : (resolveSourceInstant proj w).status = .invalidAdjusted)
    (hadj : (resolveSourceInstant proj w).adjustedWall = some w') :
    resolveSourceInstant proj w' =
      ⟨(resolveSourceInstant proj w).instantMs, .normal, none⟩ := by
  have hml := (status_invalidAdjusted_iff proj w).mp hst
  have hE60 := wallToMinuteEpoch_mod w
  -- if a pre-transition (resp. post-transition) instant projected exactly to
  -- `w`, the match list would be non-empty; hence `w` lies in the gap
  have hgap1 : T + o1 ≤ wallToMinuteEpoch w := by
    by_contra hlt
    push_neg at hlt
    have h60 : (wallToMinuteEpoch w - o1) % 60000 = 0 := by
      have := hz.grid1; omega
    have hmem : wallToMinuteEpoch w - o1 ∈ candidates (wallToMinuteEpoch w) := by
      refine mem_candidates_of _ hE60 _ h60 ?_ ?_
      · have := hz.upper1; omega
      · have := hz.lower1; omega
    obtain ⟨hsafe, hep⟩ := hz.proj_spec (wallToMinuteEpoch w - o1) h60
      (by have := hz.upper1; unfold windowMs at *; omega)
      (by have := hz.lower1; unfold windowMs at *; omega)
    rw [if_pos (by omega)] at hep
    have hwall : wallOf proj (wallToMinuteEpoch w - o1) = w := by
      apply wallToMinuteEpoch_inj _ _ hsafe hw
      show epochOf proj (wallToMinuteEpoch w - o1) = wallToMinuteEpoch w
      omega
    exact (exactMatches_eq_nil_iff proj w).mp hml _ hmem hwall
  have hgap2 : wallToMinuteEpoch w < T + o2 := by
    by_contra hge
    push_neg at hge
    have h60 : (wallToMinuteEpoch w - o2) % 60000 = 0 := by
      have := hz.grid2; omega
    have hmem : wallToMinuteEpoch w - o2 ∈ candidates (wallToMinuteEpoch w) := by
      refine mem_candidates_of _ hE60 _ h60 ?_ ?_
      · have := hz.upper2; omega
      · have := hz.lower2; omega
    obtain ⟨hsafe, hep⟩ := hz.proj_spec (wallToMinuteEpoch w - o2) h60
      (by have := hz.upper2; unfold windowMs at *; omega)
      (by have := hz.lower2; unfold windowMs at *; omega)
    rw [if_neg (by omega)] at hep
    have hwall : wallOf proj (wallToMinuteEpoch w - o2) = w := by
      apply wallToMinuteEpoch_inj _ _ hsafe hw
      show epochOf proj (wallToMinuteEpoch w - o2) = wallToMinuteEpoch w
      omega
    exact (exactMatches_eq_nil_iff proj w).mp hml _ hmem hwall
  have hres := stz_gap_resolve hz hgap1 hgap2
  rw [hres] at hadj
  simp only [Option.some.injEq] at hadj
  subst hadj
  rw [hres]
  exact stz_after_resolve hz hgap1 hgap2

/-- Civil fields (at second 0) of a minute-aligned instant that falls inside
January 2024; used to build concrete model-zone projections for witnesses
(`daysFromCivil 2024 1 1 = 19723`). -/
def msToWallJan2024 (t : Int) : ZonedDateTimeParts :=
  ⟨2024, 1, t / 86400000 - 19722, t % 86400000 / 3600000, t % 3600000 / 60000, 0⟩

theorem daysFromCivil_jan2024 (d : Int) : daysFromCivil 2024 1 d = 19722 + d := by
  simp only [daysFromCivil]
  norm_num
  omega

theorem msToWallJan2024_spec (t : Int) (h60 : t % 60000 = 0)
    (hlo : 19724 * 86400000 ≤ t) (hhi : t < 19753 * 86400000) :
    safeWall (partsToWall (msToWallJan2024 t)) ∧
    wallToMinuteEpoch (partsToWall (msToWallJan2024 t)) = t := by
  constructor
  · simp only [msToWallJan2024, partsToWall]
    unfold safeWall validWall isValidDate daysInMonth leapDay
    norm_num
    omega
  · simp only [msToWallJan2024, partsToWall]
    unfold wallToMinuteEpoch utcYear
    norm_num
    rw [daysFromCivil_jan2024]
    omega

/-- The model transition instant: 2024-01-15 02:00 wall time read as UTC. -/
def demoT : Int := wallToMinuteEpoch ⟨2024, 1, 15, 2, 0⟩

/-- A model zone with a spring-forward transition at `demoT`: offset 0 before
it, +1 h from it on. -/
def projSpringForward : Int → ZonedDateTimeParts := fun ms =>
  msToWallJan2024 (ms + (if ms < demoT then 0 else 3600000))

/-- A wall time inside the skipped hour of `projSpringForward`. -/
def demoGapWall : WallTime := ⟨2024, 1, 15, 2, 30⟩

theorem projSpringForward_zone :
    SingleTransitionZone projSpringForward 0 3600000 demoT
      (wallToMinuteEpoch demoGapWall) := by
  have hE : wallToMinuteEpoch demoGapWall = 1705285800000 := by decide
  have hT : demoT = 1705284000000 := by decide
  refine ⟨by decide, by decide, wallToMinuteEpoch_mod _, by decide, by decide,
    by decide, by decide, ?_⟩
  intro ms h60 hlo hhi
  rw [hE] at hlo hhi
  unfold windowMs at hlo hhi
  by_cases hms : ms < demoT
  · have hw : wallOf projSpringForward ms = partsToWall (msToWallJan2024 ms) := by
      unfold wallOf projSpringForward
      rw [if_pos hms, add_zero]
    have he : epochOf projSpringForward ms =
        wallToMinuteEpoch (partsToWall (msToWallJan2024 ms)) := by
      unfold epochOf
      rw [hw]
    obtain ⟨hs, hep⟩ := msToWallJan2024_spec ms (by omega) (by omega) (by omega)
    rw [if_pos hms]
    refine ⟨by rw [hw]; exact hs, by rw [he, hep]; omega⟩
  · have hw : wallOf projSpringForward ms =
        partsToWall (msToWallJan2024 (ms + 3600000)) := by
      unfold wallOf projSpringForward
      rw [if_neg hms]
    have he : epochOf projSpringForward ms =
        wallToMinuteEpoch (partsToWall (msToWallJan2024 (ms + 3600000))) := by
      unfold epochOf
      rw [hw]
    obtain ⟨hs, hep⟩ := msToWallJan2024_spec (ms + 3600000) (by omega) (by omega) (by omega)
    rw [if_neg hms]
    exact ⟨by rw [hw]; exact hs, by rw [he, hep]⟩

theorem claim_C4_witness :
    resolveSourceInstant projSpringForward ⟨2024, 1, 15, 3, 0⟩ =
      ⟨(resolveSourceInstant projSpringForward demoGapWall).instantMs, .normal, none⟩ := by
  have hz := projSpringForward_zone
  have hgap1 : demoT + 0 ≤ wallToMinuteEpoch demoGapWall := by decide
  have hgap2 : wallToMinuteEpoch demoGapWall < demoT + 3600000 := by decide
  have hres := stz_gap_resolve hz hgap1 hgap2
  have hwallT : wallOf projSpringForward demoT = ⟨2024, 1, 15, 3, 0⟩ := by decide
  exact claim_C4_adjustment_idempotent projSpringForward demoGapWall ⟨2024, 1, 15, 3, 0⟩
    0 3600000 demoT (by decide) hz (by rw [hres]) (by rw [hres, hwallT])

/-- A model zone at a fixed +2 h offset with no DST. -/
def projFixedTwoHours : Int → ZonedDateTimeParts := fun ms =>
  msToWallJan2024 (ms + 7200000)

/-- 2024-01-15 12:00, the witness request for the fixed-offset round trip. -/
def janNoonWall : WallTime := ⟨2024, 1, 15, 12, 0⟩

theorem projFixedTwoHours_zone :
    FixedOffsetZone projFixedTwoHours 7200000 (wallToMinuteEpoch janNoonWall) := by
  have hE : wallToMinuteEpoch janNoonWall = 1705320000000 := by decide
  refine ⟨by decide, by decide, by decide, ?_⟩
  intro ms h60 hlo hhi
  rw [hE] at hlo hhi
  unfold windowMs at hlo hhi
  have hw : wallOf projFixedTwoHours ms = partsToWall (msToWallJan2024 (ms + 7200000)) := rfl
  have he : epochOf projFixedTwoHours ms =
      wallToMinuteEpoch (partsToWall (msToWallJan2024 (ms + 7200000))) := rfl
  obtain ⟨hs, hep⟩ := msToWallJan2024_spec (ms + 7200000) (by omega) (by omega) (by omega)
  exact ⟨by rw [hw]; exact hs, by rw [he, hep]⟩

theorem claim_C5_witness :
    (resolveSourceInstant projFixedTwoHours janNoonWall).status = .normal ∧
    partsToWall (projFixedTwoHours
      (resolveSourceInstant projFixedTwoHours janNoonWall).instantMs) = janNoonWall :=
  claim_C5_fixed_offset_roundtrip projFixedTwoHours janNoonWall 7200000 (by decide)
    projFixedTwoHours_zone

/-! ## Strings: parsing and formatting helpers of clock.ts -/

/-- The character class `\d` of the parse regexes: ASCII `0`–`9`
(code points 48–57). -/
def isDigitCh (ch : Char) : Prop := 48 ≤ ch.toNat ∧ ch.toNat ≤ 57

instance (ch : Char) : Decidable (isDigitCh ch) := by unfold isDigitCh; infer_instance

/-- Numeric value of an ASCII digit character. -/
def digitVal (ch : Char) : Int := (ch.toNat : Int) - 48

/-- Model of `/^(\d{4})-(\d{2})-(\d{2})$/.exec(dateValue)` followed by
`Number(...)` on the three groups: the string must consist of exactly ten
characters in the digit/dash pattern, and each group's value is its decimal
reading. -/
def execDateRegex (s : String) : Option (Int × Int × Int) :=
  match s.data with
  | [y1, y2, y3, y4, s1, m1, m2, s2, d1, d2] =>
    if isDigitCh y1 ∧ isDigitCh y2 ∧ isDigitCh y3 ∧ isDigitCh y4 ∧ s1 = '-' ∧
        isDigitCh m1 ∧ isDigitCh m2 ∧ s2 = '-' ∧ isDigitCh d1 ∧ isDigitCh d2 then
      some (1000 * digitVal y1 + 100 * digitVal y2 + 10 * digitVal y3 + digitVal y4,
        10 * digitVal m1 + digitVal m2, 10 * digitVal d1 + digitVal d2)
    else none
  | _ => none

/-- Model of `/^(\d{2}):(\d{2})$/.exec(timeValue)` with `Number(...)` on the
two groups. -/
def execTimeRegex (s : String) : Option (Int × Int) :=
  match s.data with
  | [h1, h2, s1, m1, m2] =>
    if isDigitCh h1 ∧ isDigitCh h2 ∧ s1 = ':' ∧ isDigitCh m1 ∧ isDigitCh m2 then
      some (10 * digitVal h1 + digitVal h2, 10 * digitVal m1 + digitVal m2)
    else none
  | _ => none

/-- `parseWallTime` of clock.ts.  The probe
`new Date(Date.UTC(year, month - 1, day))` followed by the three `getUTC*`
round-trip checks succeeds exactly when `Date.UTC` does not normalise any
field: for the value ranges produced by the regexes (`year` 0–9999, `month`
and `day` 0–99) that is `100 ≤ year` (years 0–99 are mapped to 1900–1999, so
`getUTCFullYear` differs) together with calendar validity of the date. -/
def parseWallTime (dateValue timeValue : String) : Option WallTime :=
  match execDateRegex dateValue, execTimeRegex timeValue with
  | some (year, month, day), some (hour, minute) =>
    if hour < 0 ∨ 23 < hour ∨ minute < 0 ∨ 59 < minute then none
    else if 100 ≤ year ∧ isValidDate year month day then
      some ⟨year, month, day, hour, minute⟩
    else none
  | _, _ => none

/-- `pad2` of clock.ts: `value.toString().padStart(2, '0')`. -/
def pad2 (value : Int) : String :=
  let s := toString value
  String.mk (List.replicate (2 - s.length) '0') ++ s

/-- `formatDateInputValue` of clock.ts. -/
def formatDateInputValue (wall : WallTime) : String :=
  toString wall.year ++ "-" ++ pad2 wall.month ++ "-" ++ pad2 wall.day

/-- `formatTimeInputValue` of clock.ts. -/
def formatTimeInputValue (wall : WallTime) : String :=
  pad2 wall.hour ++ ":" ++ pad2 wall.minute

/-- `formatWallForHint` of clock.ts. -/
def formatWallForHint (wall : WallTime) : String :=
  formatDateInputValue wall ++ " " ++ formatTimeInputValue wall

/-- `formatHourMinuteDifference` of clock.ts: `hours:minutes` with the minutes
zero-padded, suffixed with `" hours"`. -/
def formatHourMinuteDifference (diffMinutes : Int) : String :=
  toString (|diffMinutes| / 60) ++ ":" ++ pad2 (|diffMinutes| % 60) ++ " hours"

/-- `describeRelativeTime` of clock.ts. -/
def describeRelativeTime (sourceLabel targetLabel : String) (diffMinutes : Int) : String :=
  if diffMinutes = 0 then
    targetLabel ++ " and " ++ sourceLabel ++ " currently share the same local time."
  else if 0 < diffMinutes then
    targetLabel ++ " time is " ++ formatHourMinuteDifference diffMinutes ++
      " ahead of " ++ sourceLabel ++ "."
  else
    targetLabel ++ " time is " ++ formatHourMinuteDifference diffMinutes ++
      " behind " ++ sourceLabel ++ "."

/-- `buildDstHint` of clock.ts. -/
def buildDstHint (result : ConversionResult) (sourceLabel : String) : String :=
  if result.status = .ambiguous then
    "The selected time in " ++ sourceLabel ++
      " occurs twice due to daylight saving time. Used the earlier occurrence."
  else if result.status = .invalidAdjusted then
    match result.adjustedWall with
    | some adjustedWall =>
      "The selected time in " ++ sourceLabel ++
        " does not exist due to daylight saving time. Used the next valid local time (" ++
        formatWallForHint adjustedWall ++ ")."
    | none =>
      "The selected time in " ++ sourceLabel ++
        " does not exist due to daylight saving time."
  else ""

/-! ## Converter view data (`converter-logic.ts`) -/

/-- `TimeZoneOption` of converter-timezones.ts. -/
structure TimeZoneOption where
  timeZone : String
  label : String
  labelLower : String
  timeZoneLower : String
deriving DecidableEq, Repr

/-- `ConverterState` of converter-logic.ts. -/
structure ConverterState where
  sourceTimeZone : String
  targetTimeZone : String
  date : String
  time : String
deriving DecidableEq, Repr

/-- `ConverterViewData` of converter-logic.ts. -/
structure ConverterViewData where
  state : ConverterState
  sourceZoneName : String
  targetZoneName : String
  targetTime : String
  targetPeriod : String
  targetDate : String
  relativeText : String
  relativeEmphasis : String
  relativeTail : String
  hint : String
  sourceDateDisplay : String
deriving DecidableEq, Repr

/-- `findTimeZoneOptionByTimeZone` of converter-timezones.ts: first entry of
the (platform-derived) option list with the given identifier.  The option list
itself comes from `Intl.supportedValuesOf` and is passed as a parameter. -/
def findTimeZoneOptionByTimeZone (options : List TimeZoneOption)
    (timeZone : String) : Option TimeZoneOption :=
  options.find? (fun option => option.timeZone == timeZone)

/-- The `Intl`-backed display formatters used by `computeConverterViewData`
(platform primitives, abstracted as in §4.1): per-zone instant projection
(`getZonedDateTimeParts`), clock-time formatting with meridiem split
(`formatConverterClockTime`), long date formatting (`formatConverterDate`),
zone-name lookup (`getTimeZoneNameAtInstant`) and the wall-date label
(`formatWallDateLabel`). -/
structure PlatformFormatters where
  zoneProj : String → Int → ZonedDateTimeParts
  clockTime : Int → String → Bool → String × String
  dateLabel : Int → String → String
  zoneName : Int → String → String
  wallDateLabel : WallTime → String

/-- `computeConverterViewData` of converter-logic.ts. -/
def computeConverterViewData (options : List TimeZoneOption)
    (pf : PlatformFormatters) (state : ConverterState) (is24Hour : Bool) :
    Option ConverterViewData :=
  match findTimeZoneOptionByTimeZone options state.sourceTimeZone,
      findTimeZoneOptionByTimeZone options state.targetTimeZone,
      parseWallTime state.date state.time with
  | some sourceZone, some targetZone, some requestedWall =>
    let result := resolveSourceInstant (pf.zoneProj sourceZone.timeZone) requestedWall
    let sourceWall := partsToWall (pf.zoneProj sourceZone.timeZone result.instantMs)
    let targetWall := partsToWall (pf.zoneProj targetZone.timeZone result.instantMs)
    let nextState : ConverterState :=
      { state with
        date := formatDateInputValue sourceWall,
        time := formatTimeInputValue sourceWall }
    let targetTimeParts := pf.clockTime result.instantMs targetZone.timeZone is24Hour
    let diffMinutes :=
      (wallToMinuteEpoch targetWall - wallToMinuteEpoch sourceWall) / 60000
    let relativeParts : String × String × String :=
      if diffMinutes = 0 then
        (targetZone.label ++ " and " ++ sourceZone.label ++ " currently ",
          "share the same local time", ".")
      else
        (targetZone.label ++ " time is ",
          (if 0 < diffMinutes then formatHourMinuteDifference diffMinutes ++ " ahead"
            else formatHourMinuteDifference diffMinutes ++ " behind"),
          " of " ++ sourceZone.label ++ ".")
    some
      { state := nextState,
        sourceZoneName := pf.zoneName result.instantMs sourceZone.timeZone,
        targetZoneName := pf.zoneName result.instantMs targetZone.timeZone,
        targetTime := targetTimeParts.1,
        targetPeriod := targetTimeParts.2,
        targetDate := pf.dateLabel result.instantMs targetZone.timeZone,
        relativeText := relativeParts.1,
        relativeEmphasis := relativeParts.2.1,
        relativeTail := relativeParts.2.2,
        hint := buildDstHint result sourceZone.label,
        sourceDateDisplay := pf.wallDateLabel sourceWall }
  | _, _, _ => none

/-! ## Decimal rendering facts used for the parse/format round trip -/

theorem toDigitsCore_of_lt (fuel n : Nat) (ds : List Char) (hf : 0 < fuel) (h : n < 10) :
    Nat.toDigitsCore 10 fuel n ds = n.digitChar :: ds := by
  cases fuel with
  | zero => omega
  | succ f =>
    simp only [Nat.toDigitsCore]
    rw [Nat.div_eq_of_lt h, if_pos rfl, Nat.mod_eq_of_lt h]

theorem toDigitsCore_unroll (fuel n : Nat) (ds : List Char) (hf : 0 < fuel)
    (h : ¬ n / 10 = 0) :
    Nat.toDigitsCore 10 fuel n ds =
      Nat.toDigitsCore 10 (fuel - 1) (n / 10) ((n % 10).digitChar :: ds) := by
  cases fuel with
  | zero => omega
  | succ f =>
    simp only [Nat.toDigitsCore]
    rw [if_neg h]
    rfl

theorem repr_data_lt_10 (n : Nat) (h : n < 10) : (Nat.repr n).data = [n.digitChar] := by
  unfold Nat.repr Nat.toDigits
  rw [toDigitsCore_of_lt (n + 1) n [] (by omega) h]
  rfl

theorem repr_data_2digit (n : Nat) (h1 : 10 ≤ n) (h2 : n ≤ 99) :
    (Nat.repr n).data = [(n / 10).digitChar, (n % 10).digitChar] := by
  unfold Nat.repr Nat.toDigits
  rw [toDigitsCore_unroll (n + 1) n [] (by omega) (by omega)]
  rw [toDigitsCore_of_lt (n + 1 - 1) (n / 10) _ (by omega) (by omega)]
  rfl

theorem repr_data_4digit (n : Nat) (h1 : 1000 ≤ n) (h2 : n ≤ 9999) :
    (Nat.repr n).data =
      [(n / 1000).digitChar, (n / 100 % 10).digitChar,
       (n / 10 % 10).digitChar, (n % 10).digitChar] := by
  unfold Nat.repr Nat.toDigits
  rw [toDigitsCore_unroll (n + 1) n [] (by omega) (by omega)]
  rw [toDigitsCore_unroll (n + 1 - 1) (n / 10) _ (by omega) (by omega)]
  rw [toDigitsCore_unroll (n + 1 - 1 - 1) (n / 10 / 10) _ (by omega) (by omega)]
  rw [toDigitsCore_of_lt _ (n / 10 / 10 / 10) _ (by omega) (by omega)]
  have e1 : n / 10 / 10 = n / 100 := by omega
  rw [e1]
  have e2 : n / 100 / 10 = n / 1000 := by omega
  rw [e2]
  rfl

theorem digitChar_inv (c : Char) (h1 : 48 ≤ c.toNat) (h2 : c.toNat ≤ 57) :
    Nat.digitChar (c.toNat - 48) = c := by
  have hc := Char.ofNat_toNat c
  obtain ⟨k, hk, hk9⟩ : ∃ k, c.toNat = 48 + k ∧ k ≤ 9 := ⟨c.toNat - 48, by omega, by omega⟩
  rw [hk]
  have he : 48 + k - 48 = k := by omega
  rw [he]
  interval_cases k <;> (rw [← hc, hk]; decide)

theorem int_toString_nonneg (v : Int) (h : 0 ≤ v) : toString v = Nat.repr v.toNat := by
  conv_lhs => rw [← Int.toNat_of_nonneg h]
  rfl

theorem string_length_data (s : String) : s.length = s.data.length := rfl

theorem pad2_digits (c1 c2 : Char) (h1 : 48 ≤ c1.toNat) (h2 : c1.toNat ≤ 57)
    (h3 : 48 ≤ c2.toNat) (h4 : c2.toNat ≤ 57) :
    pad2 (10 * digitVal c1 + digitVal c2) = ⟨[c1, c2]⟩ := by
  apply String.ext
  show (String.mk (List.replicate (2 - (toString (10 * digitVal c1 + digitVal c2)).length) '0')
      ++ toString (10 * digitVal c1 + digitVal c2)).data = [c1, c2]
  rw [String.data_append]
  have hv0 : 0 ≤ 10 * digitVal c1 + digitVal c2 := by unfold digitVal; omega
  rw [int_toString_nonneg _ hv0]
  have hvn : (10 * digitVal c1 + digitVal c2).toNat =
      10 * (c1.toNat - 48) + (c2.toNat - 48) := by
    unfold digitVal
    omega
  rw [hvn]
  by_cases hsmall : 10 * (c1.toNat - 48) + (c2.toNat - 48) < 10
  · have ha : c1.toNat - 48 = 0 := by omega
    have hb : 10 * (c1.toNat - 48) + (c2.toNat - 48) = c2.toNat - 48 := by omega
    rw [hb, repr_data_lt_10 _ (by omega)]
    rw [string_length_data, repr_data_lt_10 _ (by omega)]
    have hc1 : c1 = '0' := by
      have hd := digitChar_inv c1 h1 h2
      rw [ha] at hd
      rw [← hd]
      rfl
    rw [digitChar_inv c2 h3 h4, hc1]
    rfl
  · have hq : (10 * (c1.toNat - 48) + (c2.toNat - 48)) / 10 = c1.toNat - 48 := by omega
    have hr : (10 * (c1.toNat - 48) + (c2.toNat - 48)) % 10 = c2.toNat - 48 := by omega
    rw [repr_data_2digit _ (by omega) (by omega), string_length_data,
      repr_data_2digit _ (by omega) (by omega), hq, hr,
      digitChar_inv c1 h1 h2, digitChar_inv c2 h3 h4]
    rfl

theorem int_toString_4digit (c1 c2 c3 c4 : Char)
    (h1 : 48 ≤ c1.toNat) (h2 : c1.toNat ≤ 57) (h3 : 48 ≤ c2.toNat) (h4 : c2.toNat ≤ 57)
    (h5 : 48 ≤ c3.toNat) (h6 : c3.toNat ≤ 57) (h7 : 48 ≤ c4.toNat) (h8 : c4.toNat ≤ 57)
    (hbig : 1000 ≤ 1000 * digitVal c1 + 100 * digitVal c2 + 10 * digitVal c3 + digitVal c4) :
    toString (1000 * digitVal c1 + 100 * digitVal c2 + 10 * digitVal c3 + digitVal c4) =
      ⟨[c1, c2, c3, c4]⟩ := by
  apply String.ext
  have hv0 : 0 ≤ 1000 * digitVal c1 + 100 * digitVal c2 + 10 * digitVal c3 + digitVal c4 := by
    unfold digitVal
    omega
  rw [int_toString_nonneg _ hv0]
  have hvn : (1000 * digitVal c1 + 100 * digitVal c2 + 10 * digitVal c3 + digitVal c4).toNat =
      1000 * (c1.toNat - 48) + 100 * (c2.toNat - 48) + 10 * (c3.toNat - 48) +
        (c4.toNat - 48) := by
    unfold digitVal
    omega
  rw [hvn]
  have hbig2 : 1000 ≤ 1000 * (c1.toNat - 48) + 100 * (c2.toNat - 48) +
      10 * (c3.toNat - 48) + (c4.toNat - 48) := by
    unfold digitVal at hbig
    omega
  rw [repr_data_4digit _ (by omega) (by omega)]
  have hq1 : (1000 * (c1.toNat - 48) + 100 * (c2.toNat - 48) + 10 * (c3.toNat - 48) +
      (c4.toNat - 48)) / 1000 = c1.toNat - 48 := by omega
  have hq2 : (1000 * (c1.toNat - 48) + 100 * (c2.toNat - 48) + 10 * (c3.toNat - 48) +
      (c4.toNat - 48)) / 100 % 10 = c2.toNat - 48 := by omega
  have hq3 : (1000 * (c1.toNat - 48) + 100 * (c2.toNat - 48) + 10 * (c3.toNat - 48) +
      (c4.toNat - 48)) / 10 % 10 = c3.toNat - 48 := by omega
  have hq4 : (1000 * (c1.toNat - 48) + 100 * (c2.toNat - 48) + 10 * (c3.toNat - 48) +
      (c4.toNat - 48)) % 10 = c4.toNat - 48 := by omega
  rw [hq1, hq2, hq3, hq4, digitChar_inv c1 h1 h2, digitChar_inv c2 h3 h4,
    digitChar_inv c3 h5 h6, digitChar_inv c4 h7 h8]

/-- The spec-side notion of an acceptable converter input (refinement target
for the parser claim, stated from the specification's words): the date string
has the exact form `YYYY-MM-DD` naming a calendar-valid date and the time
string the exact form `HH:MM` with hour 0–23 and minute 0–59. -/
def specWellFormedInput (dateValue timeValue : String) : Prop :=
  ∃ y m d h mi : Int,
    execDateRegex dateValue = some (y, m, d) ∧
    execTimeRegex timeValue = some (h, mi) ∧
    isValidDate y m d ∧ 0 ≤ h ∧ h ≤ 23 ∧ 0 ≤ mi ∧ mi ≤ 59

/-- C6 as stated is false: `"0099-01-01"` is a well-formed, calendar-valid
date string with `"12:00"` a well-formed time, yet `parseWallTime` rejects it,
because the `Date.UTC` probe maps years 0–99 to 1900–1999 and the round-trip
check fails. -/
theorem claim_C6_counterexample :
    parseWallTime "0099-01-01" "12:00" = none ∧
    specWellFormedInput "0099-01-01" "12:00" := by
  constructor
  · decide
  · exact ⟨99, 1, 1, 12, 0, by decide, by decide, by decide, by decide, by decide,
      by decide, by decide⟩

/-- C6 amended: `parseWallTime` returns a wall time exactly when both strings
are well-formed per the spec **and** the four-digit year is at least 100
(years 0000–0099 are rejected by the `Date.UTC` probe's two-digit-year
mapping); in every other case it returns `none` (and, being a total function,
never throws).  `computeConverterViewData` returns `none` whenever a zone
identifier is not found or parsing fails. -/
theorem claim_C6_parse_boundary (dateValue timeValue : String)
    (options : List TimeZoneOption) (pf : PlatformFormatters)
    (state : ConverterState) (is24Hour : Bool) :
    ((∃ w, parseWallTime dateValue timeValue = some w) ↔
      specWellFormedInput dateValue timeValue ∧
        ∀ y m d, execDateRegex dateValue = some (y, m, d) → 100 ≤ y) ∧
    ((findTimeZoneOptionByTimeZone options state.sourceTimeZone = none ∨
      findTimeZoneOptionByTimeZone options state.targetTimeZone = none ∨
      parseWallTime state.date state.time = none) →
      computeConverterViewData options pf state is24Hour = none) := by
  constructor
  · constructor
    · rintro ⟨w, hw⟩
      unfold parseWallTime at hw
      rcases hd : execDateRegex dateValue with _ | ymd
      · rw [hd] at hw; cases hw
      · obtain ⟨y, m, d⟩ := ymd
        rcases ht : execTimeRegex timeValue with _ | hmi
        · rw [hd, ht] at hw; cases hw
        · obtain ⟨h, mi⟩ := hmi
          rw [hd, ht] at hw
          dsimp only at hw
          by_cases hb : h < 0 ∨ 23 < h ∨ mi < 0 ∨ 59 < mi
          · rw [if_pos hb] at hw
            cases hw
          · rw [if_neg hb] at hw
            by_cases hv : 100 ≤ y ∧ isValidDate y m d
            · refine ⟨⟨y, m, d, h, mi, hd, ht, hv.2, by omega, by omega, by omega,
                by omega⟩, ?_⟩
              intro y2 m2 d2 h2
              simp only [Option.some.injEq, Prod.mk.injEq] at h2
              have := hv.1
              omega
            · rw [if_neg hv] at hw
              cases hw
    · rintro ⟨⟨y, m, d, h, mi, hd, ht, hval, hh0, hh1, hm0, hm1⟩, hyear⟩
      refine ⟨⟨y, m, d, h, mi⟩, ?_⟩
      unfold parseWallTime
      rw [hd, ht]
      dsimp only
      rw [if_neg (by omega), if_pos ⟨hyear y m d hd, hval⟩]
  · intro hcase
    rcases hsrc : findTimeZoneOptionByTimeZone options state.sourceTimeZone with _ | sz
    · simp only [computeConverterViewData, hsrc]
    · rcases htgt : findTimeZoneOptionByTimeZone options state.targetTimeZone with _ | tz
      · simp only [computeConverterViewData, hsrc, htgt]
      · rcases hp : parseWallTime state.date state.time with _ | w
        · simp only [computeConverterViewData, hsrc, htgt, hp]
        · rcases hcase with hc | hc | hc
          · rw [hsrc] at hc; cases hc
          · rw [htgt] at hc; cases hc
          · rw [hp] at hc; cases hc

/-- Trivial display formatters, used to exercise the `none` guard. -/
def emptyFormatters : PlatformFormatters :=
  ⟨fun _ _ => ⟨0, 0, 0, 0, 0, 0⟩, fun _ _ _ => ("", ""), fun _ _ => "",
    fun _ _ => "", fun _ => ""⟩

theorem claim_C6_witness :
    (∃ w, parseWallTime "2024-02-29" "23:59" = some w) ∧
    computeConverterViewData [] emptyFormatters
      ⟨"UTC", "UTC", "2024-02-29", "23:59"⟩ true = none := by
  constructor
  · exact (claim_C6_parse_boundary "2024-02-29" "23:59" [] emptyFormatters
      ⟨"UTC", "UTC", "2024-02-29", "23:59"⟩ true).1.mpr
      ⟨⟨2024, 2, 29, 23, 59, by decide, by decide, by decide, by decide, by decide,
        by decide, by decide⟩,
        fun y m d h => by
          rw [show execDateRegex "2024-02-29" = some (2024, 2, 29) from by decide] at h
          simp only [Option.some.injEq, Prod.mk.injEq] at h
          omega⟩
  · exact (claim_C6_parse_boundary "2024-02-29" "23:59" [] emptyFormatters
      ⟨"UTC", "UTC", "2024-02-29", "23:59"⟩ true).2 (Or.inl rfl)

/-- C8: the relative-offset sentence is determined by the signed wall-minute
difference: zero yields the shared-local-time sentence; a positive difference
yields "H:MM hours ahead" and a negative one "H:MM hours behind", where H:MM
is the absolute difference with zero-padded minutes; and when the source and
target zone identifiers are equal, the computed view data always carries the
shared-local-time wording, regardless of date and time. -/
theorem claim_C8_relative_wording (sourceLabel targetLabel : String) (diffMinutes : Int)
    (options : List TimeZoneOption) (pf : PlatformFormatters)
    (state : ConverterState) (is24Hour : Bool) (v : ConverterViewData) :
    (diffMinutes = 0 → describeRelativeTime sourceLabel targetLabel diffMinutes =
      targetLabel ++ " and " ++ sourceLabel ++ " currently share the same local time.") ∧
    (0 < diffMinutes → describeRelativeTime sourceLabel targetLabel diffMinutes =
      targetLabel ++ " time is " ++
        (toString (|diffMinutes| / 60) ++ ":" ++ pad2 (|diffMinutes| % 60) ++ " hours") ++
        " ahead of " ++ sourceLabel ++ ".") ∧
    (diffMinutes < 0 → describeRelativeTime sourceLabel targetLabel diffMinutes =
      targetLabel ++ " time is " ++
        (toString (|diffMinutes| / 60) ++ ":" ++ pad2 (|diffMinutes| % 60) ++ " hours") ++
        " behind " ++ sourceLabel ++ ".") ∧
    (state.sourceTimeZone = state.targetTimeZone →
      computeConverterViewData options pf state is24Hour = some v →
      v.relativeEmphasis = "share the same local time" ∧ v.relativeTail = ".") := by
  refine ⟨?_, ?_, ?_, ?_⟩
  · intro h
    unfold describeRelativeTime
    rw [if_pos h]
  · intro h
    unfold describeRelativeTime formatHourMinuteDifference
    rw [if_neg (by omega), if_pos h]
  · intro h
    unfold describeRelativeTime formatHourMinuteDifference
    rw [if_neg (by omega), if_neg (by omega)]
  · intro hsame hv
    unfold computeConverterViewData at hv
    rw [← hsame] at hv
    rcases hsrc : findTimeZoneOptionByTimeZone options state.sourceTimeZone with _ | sz
    · rw [hsrc] at hv
      cases hv
    · rw [hsrc] at hv
      rcases hp : parseWallTime state.date state.time with _ | w0
      · rw [hp] at hv
        cases hv
      · rw [hp] at hv
        dsimp only at hv
        rw [if_pos (by rw [sub_self]; rfl)] at hv
        cases hv
        exact ⟨rfl, rfl⟩

/-- The single supported zone entry used by the C8 witness. -/
def utcOpt : TimeZoneOption := ⟨"UTC", "UTC", "utc", "utc"⟩

/-- A converter state with equal source and target zones. -/
def c8State : ConverterState := ⟨"UTC", "UTC", "1970-01-01", "00:00"⟩

/-- Formatters whose zone projection matches 1970-01-01 00:00 at exactly one
candidate (so the witness resolution takes the cheap `normal` branch). -/
def c8Formatters : PlatformFormatters :=
  ⟨fun _ => projOneMatch, fun _ _ _ => ("", ""), fun _ _ => "", fun _ _ => "",
    fun _ => ""⟩

/-- The view data `computeConverterViewData` produces for `c8State` under
`c8Formatters`. -/
def c8View : ConverterViewData :=
  ⟨⟨"UTC", "UTC", "1970-01-01", "00:00"⟩, "", "", "", "", "",
    "UTC and UTC currently ", "share the same local time", ".", "", ""⟩

set_option maxHeartbeats 4000000 in
theorem claim_C8_witness :
    describeRelativeTime "A" "B" 0 = "B and A currently share the same local time." ∧
    describeRelativeTime "A" "B" 90 = "B time is 1:30 hours ahead of A." ∧
    describeRelativeTime "A" "B" (-90) = "B time is 1:30 hours behind A." ∧
    c8View.relativeEmphasis = "share the same local time" ∧ c8View.relativeTail = "." := by
  have h := claim_C8_relative_wording "A" "B" 0 [utcOpt] c8Formatters c8State true c8View
  have h90 := claim_C8_relative_wording "A" "B" 90 [utcOpt] c8Formatters c8State true c8View
  have hm90 := claim_C8_relative_wording "A" "B" (-90) [utcOpt] c8Formatters c8State true c8View
  have hv : computeConverterViewData [utcOpt] c8Formatters c8State true = some c8View := by
    decide
  refine ⟨?_, ?_, ?_, h.2.2.2 rfl hv⟩
  · rw [h.1 rfl]
    decide
  · rw [h90.2.1 (by decide)]
    decide
  · rw [hm90.2.2.1 (by decide)]
    decide

theorem execDateRegex_chars (s : String) (y m d : Int)
    (h : execDateRegex s = some (y, m, d)) :
    ∃ c1 c2 c3 c4 c5 c6 c7 c8,
      s.data = [c1, c2, c3, c4, '-', c5, c6, '-', c7, c8] ∧
      isDigitCh c1 ∧ isDigitCh c2 ∧ isDigitCh c3 ∧ isDigitCh c4 ∧
      isDigitCh c5 ∧ isDigitCh c6 ∧ isDigitCh c7 ∧ isDigitCh c8 ∧
      y = 1000 * digitVal c1 + 100 * digitVal c2 + 10 * digitVal c3 + digitVal c4 ∧
      m = 10 * digitVal c5 + digitVal c6 ∧ d = 10 * digitVal c7 + digitVal c8 := by
  unfold execDateRegex at h
  rcases hdata : s.data with - | ⟨c1, - | ⟨c2, - | ⟨c3, - | ⟨c4, - | ⟨s1,
    - | ⟨c5, - | ⟨c6, - | ⟨s2, - | ⟨c7, - | ⟨c8, - | ⟨c9, rest⟩⟩⟩⟩⟩⟩⟩⟩⟩⟩⟩ <;>
    rw [hdata] at h <;> dsimp only at h
  · cases h
  · cases h
  · cases h
  · cases h
  · cases h
  · cases h
  · cases h
  · cases h
  · cases h
  · cases h
  · by_cases hc : isDigitCh c1 ∧ isDigitCh c2 ∧ isDigitCh c3 ∧ isDigitCh c4 ∧
        s1 = '-' ∧ isDigitCh c5 ∧ isDigitCh c6 ∧ s2 = '-' ∧ isDigitCh c7 ∧ isDigitCh c8
    · rw [if_pos hc] at h
      simp only [Option.some.injEq, Prod.mk.injEq] at h
      obtain ⟨hd1, hd2, hd3, hd4, hs1, hd5, hd6, hs2, hd7, hd8⟩ := hc
      subst hs1
      subst hs2
      exact ⟨c1, c2, c3, c4, c5, c6, c7, c8, rfl, hd1, hd2, hd3, hd4, hd5, hd6,
        hd7, hd8, h.1.symm, h.2.1.symm, h.2.2.symm⟩
    · rw [if_neg hc] at h
      cases h
  · cases h

theorem execTimeRegex_chars (s : String) (h mi : Int)
    (hx : execTimeRegex s = some (h, mi)) :
    ∃ c1 c2 c3 c4,
      s.data = [c1, c2, ':', c3, c4] ∧
      isDigitCh c1 ∧ isDigitCh c2 ∧ isDigitCh c3 ∧ isDigitCh c4 ∧
      h = 10 * digitVal c1 + digitVal c2 ∧ mi = 10 * digitVal c3 + digitVal c4 := by
  unfold execTimeRegex at hx
  rcases hdata : s.data with - | ⟨c1, - | ⟨c2, - | ⟨s1, - | ⟨c3,
    - | ⟨c4, - | ⟨c5, rest⟩⟩⟩⟩⟩⟩ <;> rw [hdata] at hx <;> dsimp only at hx
  · cases hx
  · cases hx
  · cases hx
  · cases hx
  · cases hx
  · by_cases hc : isDigitCh c1 ∧ isDigitCh c2 ∧ s1 = ':' ∧ isDigitCh c3 ∧ isDigitCh c4
    · rw [if_pos hc] at hx
      simp only [Option.some.injEq, Prod.mk.injEq] at hx
      obtain ⟨hd1, hd2, hs1, hd3, hd4⟩ := hc
      subst hs1
      exact ⟨c1, c2, c3, c4, rfl, hd1, hd2, hd3, hd4, hx.1.symm, hx.2.symm⟩
    · rw [if_neg hc] at hx
      cases hx
  · cases hx

/-- C10: for inputs accepted by `parseWallTime` whose year is at least 1000,
formatting the parsed wall time with `formatDateInputValue` and
`formatTimeInputValue` reproduces the original strings character for
character. -/
theorem claim_C10_parse_format_roundtrip (dateValue timeValue : String) (w : WallTime)
    (hp : parseWallTime dateValue timeValue = some w) (hy : 1000 ≤ w.year) :
    formatDateInputValue w = dateValue ∧ formatTimeInputValue w = timeValue := by
  unfold parseWallTime at hp
  rcases hd : execDateRegex dateValue with - | ymd
  · rw [hd] at hp
    cases hp
  · obtain ⟨y, m, d⟩ := ymd
    rcases ht : execTimeRegex timeValue with - | hmi
    · rw [hd, ht] at hp
      cases hp
    · obtain ⟨h, mi⟩ := hmi
      rw [hd, ht] at hp
      dsimp only at hp
      by_cases hb : h < 0 ∨ 23 < h ∨ mi < 0 ∨ 59 < mi
      · rw [if_pos hb] at hp
        cases hp
      · rw [if_neg hb] at hp
        by_cases hv : 100 ≤ y ∧ isValidDate y m d
        · rw [if_pos hv] at hp
          obtain ⟨c1, c2, c3, c4, c5, c6, c7, c8, hdata, hd1, hd2, hd3, hd4, hd5,
            hd6, hd7, hd8, hy', hm', hdd'⟩ := execDateRegex_chars dateValue y m d hd
          obtain ⟨t1, t2, t3, t4, htdata, ht1, ht2, ht3, ht4, hh', hmi'⟩ :=
            execTimeRegex_chars timeValue h mi ht
          cases hp
          unfold isDigitCh at hd1 hd2 hd3 hd4 hd5 hd6 hd7 hd8 ht1 ht2 ht3 ht4
          constructor
          · apply String.ext
            unfold formatDateInputValue
            show ((toString y ++ "-" ++ pad2 m ++ "-" ++ pad2 d).data = dateValue.data)
            rw [hy', hm', hdd']
            rw [int_toString_4digit c1 c2 c3 c4 hd1.1 hd1.2 hd2.1 hd2.2 hd3.1 hd3.2
              hd4.1 hd4.2 (by rw [← hy']; simpa using hy)]
            rw [pad2_digits c5 c6 hd5.1 hd5.2 hd6.1 hd6.2,
              pad2_digits c7 c8 hd7.1 hd7.2 hd8.1 hd8.2]
            simp only [String.data_append, hdata]
            rfl
          · apply String.ext
            unfold formatTimeInputValue
            show ((pad2 h ++ ":" ++ pad2 mi).data = timeValue.data)
            rw [hh', hmi']
            rw [pad2_digits t1 t2 ht1.1 ht1.2 ht2.1 ht2.2,
              pad2_digits t3 t4 ht3.1 ht3.2 ht4.1 ht4.2]
            simp only [String.data_append, htdata]
            rfl
        · rw [if_neg hv] at hp
          cases hp

theorem claim_C10_witness :
    formatDateInputValue ⟨2024, 2, 29, 23, 59⟩ = "2024-02-29" ∧
    formatTimeInputValue ⟨2024, 2, 29, 23, 59⟩ = "23:59" :=
  claim_C10_parse_format_roundtrip "2024-02-29" "23:59" ⟨2024, 2, 29, 23, 59⟩
    (by decide) (by decide)
